import Mathlib

/-!
Verification of the grid-pathfinding program `warehouse_robot.cc`.

The development shallowly embeds the program: pure C++ functions become Lean
functions, the mutable arrays of the searches become explicitly threaded
state (total functions out of `Point`, updated pointwise), the `while` loops
become fuel-indexed structural recursions (with the fuel proved sufficient),
and the SDL event loop becomes a step function on an explicit simulation
state.  Out-of-range `std::vector` subscripts are undefined behaviour in the
source; the corresponding model operations return `none` in that case.
-/

namespace WarehouseRobot

/-- Grid cell / screen constants from the top of `warehouse_robot.cc`. -/
def SCREEN_WIDTH : Int := 800

/-- Screen height constant. -/
def SCREEN_HEIGHT : Int := 600

/-- Pixel size of one grid cell. -/
def GRID_SIZE : Int := 40

/-- `ROWS = SCREEN_HEIGHT / GRID_SIZE = 15`. -/
def ROWS : Int := SCREEN_HEIGHT / GRID_SIZE

/-- `COLS = SCREEN_WIDTH / GRID_SIZE = 20`. -/
def COLS : Int := SCREEN_WIDTH / GRID_SIZE

/-- The `Point` struct: an integer coordinate pair, componentwise equality. -/
structure Point where
  x : Int
  y : Int
deriving DecidableEq, Repr

/-- The occupancy grid `warehouseGrid`: the source stores a
`ROWS × COLS` vector of `int` accessed as `warehouseGrid[y][x]`; the model
is a total function on points (out-of-bounds points are never accessed by
the embedded code paths that the C++ executes). `0` is Free. -/
def Grid : Type := Point → Int

/-- Pointwise update of a point-indexed array, modelling a single
`arr[p.y][p.x] = v` store. -/
def upd {α : Type} (f : Point → α) (p : Point) (v : α) : Point → α :=
  fun q => if q = p then v else f q

/-- `isValidGridPosition`: in bounds and the grid cell holds `0` (Free).
The `&&` chain mirrors the source's short-circuit conjunction. -/
def isValidGridPosition (g : Grid) (x y : Int) : Bool :=
  decide (x ≥ 0) && decide (x < COLS) && decide (y ≥ 0) && decide (y < ROWS)
    && (g ⟨x, y⟩ == 0)

/-- The Manhattan distance `std::abs(a.x - b.x) + std::abs(a.y - b.y)`
(the source's `Point::heuristic`, inlined in `findPathA`). -/
def manhattan (a b : Point) : Int :=
  |a.x - b.x| + |a.y - b.y|

/-- The neighbour offsets `dx[] = {0,1,0,-1}`, `dy[] = {-1,0,1,0}` paired
up, in loop order `i = 0..3`. -/
def dirs : List (Int × Int) := [(0, -1), (1, 0), (0, 1), (-1, 0)]

/-- The four 4-connected neighbours of a point, in the loop order of the
source. -/
def neighbors (p : Point) : List Point :=
  dirs.map fun d => ⟨p.x + d.1, p.y + d.2⟩

/-- Propositional counterpart of `isValidGridPosition`. -/
def validCell (g : Grid) (p : Point) : Prop :=
  0 ≤ p.x ∧ p.x < COLS ∧ 0 ≤ p.y ∧ p.y < ROWS ∧ g p = 0

instance (g : Grid) (p : Point) : Decidable (validCell g p) := by
  unfold validCell; infer_instance

/-- In-bounds predicate (without the occupancy condition). -/
def inBounds (p : Point) : Prop :=
  0 ≤ p.x ∧ p.x < COLS ∧ 0 ≤ p.y ∧ p.y < ROWS

instance (p : Point) : Decidable (inBounds p) := by
  unfold inBounds; infer_instance

/-! ### Path reconstruction

`while (!(current == start)) { path.push_back(current); current = parents[...]; }
std::reverse(path)` — fuel-indexed; the fuel is always sufficient at the
call sites (proved via the parent-chain invariants). -/

/-- Parent-pointer walk from `cur` back to `start`, accumulating cells in
pop order and reversing at the end, exactly as the source loop does. -/
def reconstructPath (par : Point → Point) (start : Point) :
    Nat → Point → List Point → List Point
  | 0, _, acc => acc.reverse
  | fuel + 1, cur, acc =>
    if cur = start then acc.reverse
    else reconstructPath par start fuel (par cur) (acc ++ [cur])

/-! ### BFS (`findPath`) -/

/-- The local state of `findPath`: FIFO queue, visited marks, parent
pointers (parents are initialised to the sentinel `{-1,-1}`). -/
structure BfsState where
  queue : List Point
  visited : Point → Bool
  parents : Point → Point

/-- Expansion of one dequeued cell: the `for (i = 0..3)` loop of
`findPath`, enqueueing valid unvisited neighbours (visited is marked at
enqueue time). -/
def bfsExpand (g : Grid) (current : Point) (st : BfsState) : BfsState :=
  dirs.foldl (fun st d =>
    let n : Point := ⟨current.x + d.1, current.y + d.2⟩
    if isValidGridPosition g n.x n.y && !st.visited n then
      ⟨st.queue ++ [n], upd st.visited n true, upd st.parents n current⟩
    else st) st

/-- The `while (!queue.empty())` loop of `findPath`. -/
def bfsLoop (g : Grid) (start ed : Point) : Nat → BfsState → List Point
  | 0, _ => []
  | fuel + 1, st =>
    match st.queue with
    | [] => []
    | current :: rest =>
      if current = ed then reconstructPath st.parents start 1000 current []
      else bfsLoop g start ed fuel (bfsExpand g current ⟨rest, st.visited, st.parents⟩)

/-- `findPath(start, end)`: BFS over the 4-connected grid.  The fuel
`1000` dominates the loop's iteration count (at most `601` iterations, see
`bfsMeasure`). -/
def findPath (g : Grid) (start ed : Point) : List Point :=
  bfsLoop g start ed 1000
    ⟨[start], upd (fun _ => false) start true, fun _ => ⟨-1, -1⟩⟩

/-! ### The `std::priority_queue` of `findPathA`

`std::priority_queue<std::pair<Point,int>, vector, comp>` with
`comp(a,b) = a.second > b.second` is a binary heap in a vector, operated
on by libstdc++'s `std::push_heap` / `std::pop_heap` (`__push_heap` and
Floyd's `__adjust_heap` from `bits/stl_heap.h`, which the GNU toolchain
used by the project's Makefile links against).  The model ports those
index manipulations verbatim onto a `List`. -/

/-- Heap entries: `std::pair<Point, int>` (cell, f-cost). -/
abbrev Entry := Point × Int

/-- Element read `a[i]`; the default is never reached at in-range indices. -/
def getE (a : List Entry) (i : Nat) : Entry :=
  a.getD i (⟨0, 0⟩, 0)

/-- The comparator lambda: `a.second > b.second`. -/
def heapLess (a b : Entry) : Bool :=
  decide (a.2 > b.2)

/-- `__push_heap(first, holeIndex, topIndex = 0, value)`: sift the hole up
while the parent compares less than `value`, then store `value`.  The fuel
bounds the strictly decreasing hole index. -/
def pushUp : Nat → List Entry → Nat → Entry → List Entry
  | 0, a, hole, value => a.set hole value
  | fuel + 1, a, hole, value =>
    if hole > 0 then
      let parent := (hole - 1) / 2
      if heapLess (getE a parent) value then
        pushUp fuel (a.set hole (getE a parent)) parent value
      else a.set hole value
    else a.set hole value

/-- `priority_queue::push`: append, then `__push_heap` from the last slot. -/
def heapPush (a : List Entry) (value : Entry) : List Entry :=
  pushUp (a.length + 1) (a ++ [value]) a.length value

/-- The descending loop of `__adjust_heap`: move the hole down along the
comparator-preferred-child path to the bottom level.  Returns the final
hole position together with the updated array. -/
def adjustLoop : Nat → List Entry → Nat → Nat → List Entry × Nat
  | 0, a, hole, _ => (a, hole)
  | fuel + 1, a, hole, len =>
    if hole < (len - 1) / 2 then
      let sc0 := 2 * (hole + 1)
      let sc := if heapLess (getE a sc0) (getE a (sc0 - 1)) then sc0 - 1 else sc0
      adjustLoop fuel (a.set hole (getE a sc)) sc len
    else (a, hole)

/-- `__adjust_heap(first, holeIndex = 0, len, value)`: push the hole to a
leaf (including the single-child tail case for even `len`), then
`__push_heap` the value back up from the leaf hole. -/
def heapAdjust (a : List Entry) (len : Nat) (value : Entry) : List Entry :=
  let s1 := adjustLoop len a 0 len
  let s2 :=
    if len % 2 == 0 && s1.2 == (len - 2) / 2 then
      let sc := 2 * (s1.2 + 1)
      (s1.1.set s1.2 (getE s1.1 (sc - 1)), sc - 1)
    else s1
  pushUp (s2.2 + 1) s2.1 s2.2 value

/-- `priority_queue::pop`: `std::pop_heap` (move the last element's value
into the root hole via `__adjust_heap` over `len - 1`) then `pop_back`
(dropping the slot holding the old root). -/
def heapPop (a : List Entry) : List Entry :=
  if a.length ≤ 1 then []
  else heapAdjust (a.take (a.length - 1)) (a.length - 1) (getE a (a.length - 1))

/-! ### A* (`findPathA`) -/

/-- `INT_MAX`, the initial `gCost` sentinel. -/
def INT_MAX : Int := 2147483647

/-- The local state of `findPathA`: the open list (a heap of
(cell, f-cost) pairs), visited marks, parent pointers, best-known g-costs. -/
structure AStarState where
  openList : List Entry
  visited : Point → Bool
  parents : Point → Point
  gCost : Point → Int

/-- Relaxation of the neighbours of `current`: the `for (i = 0..3)` loop of
`findPathA`.  For a valid, unvisited neighbour with a strictly smaller new
g-cost, the parent, g-cost and open list are updated. -/
def astarExpand (g : Grid) (ed current : Point)
    (pushF : List Entry → Entry → List Entry) (st : AStarState) : AStarState :=
  dirs.foldl (fun st d =>
    let n : Point := ⟨current.x + d.1, current.y + d.2⟩
    if isValidGridPosition g n.x n.y && !st.visited n then
      let newGCost := st.gCost current + 1
      let hCost := |n.x - ed.x| + |n.y - ed.y|
      let fCost := newGCost + hCost
      if newGCost < st.gCost n then
        ⟨pushF st.openList (n, fCost), st.visited,
          upd st.parents n current, upd st.gCost n newGCost⟩
      else st
    else st) st

/-- The `while (!openList.empty())` loop of `findPathA`, parameterised by
the frontier's push and pop operations (`findPathA` instantiates them with
the `std::priority_queue` heap operations).  `top()` is slot `0`. -/
def astarLoop (g : Grid) (start ed : Point)
    (pushF : List Entry → Entry → List Entry)
    (popF : List Entry → List Entry) : Nat → AStarState → List Point
  | 0, _ => []
  | fuel + 1, st =>
    match st.openList with
    | [] => []
    | _ :: _ =>
      let current := (getE st.openList 0).1
      let rest := popF st.openList
      if current = ed then reconstructPath st.parents start 1000 current []
      else
        astarLoop g start ed pushF popF fuel
          (astarExpand g ed current pushF
            ⟨rest, upd st.visited current true, st.parents, st.gCost⟩)

/-- The initial A* state: `openList.push({start, 0}); gCost[start] = 0`. -/
def astarInit (start : Point) : AStarState :=
  ⟨[(start, 0)], fun _ => false, fun _ => ⟨-1, -1⟩, upd (fun _ => INT_MAX) start 0⟩

/-- `findPathA(start, end)`: A* with the Manhattan heuristic, the open
list being the `std::priority_queue` binary heap.  The fuel `100000`
dominates the loop's iteration count (see `astarMeasure`). -/
def findPathA (g : Grid) (start ed : Point) : List Point :=
  astarLoop g start ed heapPush heapPop 100000 (astarInit start)

/-- Modelled from the spec: the reference A* whose open set pops
equal-f-cost entries in FIFO order of insertion ("implementations MUST
break ties among equal f-costs by insertion order (oldest first)").  The
open list is kept sorted by f-cost, a new entry being inserted after all
entries of f-cost less than or equal to its own; popping takes the front. -/
def fifoPush : List Entry → Entry → List Entry
  | [], x => [x]
  | e :: rest, x => if e.2 ≤ x.2 then e :: fifoPush rest x else x :: e :: rest

/-- Modelled from the spec: the FIFO-tie-break reference A* search
(identical to `findPathA` except for the open-set order on ties). -/
def findPathAFifo (g : Grid) (start ed : Point) : List Point :=
  astarLoop g start ed fifoPush List.tail 100000 (astarInit start)

/-! ### Layout persistence (`saveLayout` / `loadLayout`)

A layout file is modelled by the sequence of integer tokens it provides
(`operator>>` skips whitespace, so line structure is immaterial), or by
`none` when the stream cannot be opened.  Once the stream is exhausted,
`operator>>`'s sentry fails before `num_get` runs, so the extraction
leaves its target unmodified (and every later extraction fails the same
way); hence reading the `k`-th integer of a token list `ts` into a cell
holding `v` yields `ts.getD k v`. -/

/-- `saveLayout`: the token sequence written to the file — the grid cells
in row-major order (`for row : for cell : ofs << cell << " "`). -/
def saveLayout (g : Grid) : List Int :=
  (List.range ROWS.toNat).flatMap fun (i : ℕ) =>
    (List.range COLS.toNat).map fun (j : ℕ) => g ⟨(j : Int), (i : Int)⟩

/-- `loadLayout`: on open failure (`none`) report an error (`true`) and
leave the grid alone; otherwise overwrite each in-bounds cell `[i][j]`
with the `(i*COLS + j)`-th token and report no error.  Once the file has
run out of tokens the extraction's sentry fails and the cell keeps its
previous value. -/
def loadLayout (g : Grid) (file : Option (List Int)) : Grid × Bool :=
  match file with
  | none => (g, true)
  | some ts =>
    (fun p =>
      if 0 ≤ p.x ∧ p.x < COLS ∧ 0 ≤ p.y ∧ p.y < ROWS then
        ts.getD (p.y * COLS + p.x).toNat (g p)
      else g p, false)

/-! ### The main event loop

The loop's mutable state (grid, robot grid position, destination and flag,
algorithm selector, current path, progress index) plus the layout file's
token contents.  The robot's continuous sub-cell position is motion
interpolation only; the `tick` event's `arrived` flag abstracts
`moveToward` having brought the robot onto the waypoint cell. -/

structure SimState where
  warehouseGrid : Grid
  robotPos : Point
  destination : Point
  hasDestination : Bool
  useAStar : Bool
  path : List Point
  currentPathIndex : Nat
  savedFile : Option (List Int)

/-- Input events of the main loop, with clicks already quantised to grid
cell coordinates (`e.button.x / GRID_SIZE`, `e.button.y / GRID_SIZE`). -/
inductive Ev where
  | leftClick (gx gy : Int)
  | rightClick (gx gy : Int)
  | keyR
  | keyT
  | keyS
  | keyL
  | tick (arrived : Bool)
deriving DecidableEq, Repr

/-- `useAStar ? findPathA(...) : findPath(...)`. -/
def computePath (useA : Bool) (g : Grid) (s e : Point) : List Point :=
  if useA then findPathA g s e else findPath g s e

/-- One step of the event handling in `main`.  `none` marks undefined
behaviour: the right-click handler indexes `warehouseGrid[gridY][gridX]`
with no bounds check, so an out-of-bounds click is an out-of-range
`std::vector` subscript. -/
def stepEv (s : SimState) (e : Ev) : Option SimState :=
  match e with
  | .leftClick gx gy =>
    if isValidGridPosition s.warehouseGrid gx gy then
      some { s with destination := ⟨gx, gy⟩, hasDestination := true,
                    path := computePath s.useAStar s.warehouseGrid s.robotPos ⟨gx, gy⟩,
                    currentPathIndex := 0 }
    else some s
  | .rightClick gx gy =>
    if inBounds ⟨gx, gy⟩ then
      let g' := upd s.warehouseGrid ⟨gx, gy⟩ (1 - s.warehouseGrid ⟨gx, gy⟩)
      if s.hasDestination then
        some { s with warehouseGrid := g',
                      path := computePath s.useAStar g' s.robotPos s.destination,
                      currentPathIndex := 0 }
      else some { s with warehouseGrid := g' }
    else none
  | .keyR => some { s with hasDestination := false, path := [] }
  | .keyT =>
    let u := !s.useAStar
    if s.hasDestination then
      some { s with useAStar := u,
                    path := computePath u s.warehouseGrid s.robotPos s.destination,
                    currentPathIndex := 0 }
    else some { s with useAStar := u }
  | .keyS => some { s with savedFile := some (saveLayout s.warehouseGrid) }
  | .keyL =>
    let g' := (loadLayout s.warehouseGrid s.savedFile).1
    if s.hasDestination then
      some { s with warehouseGrid := g',
                    path := computePath s.useAStar g' s.robotPos s.destination,
                    currentPathIndex := 0 }
    else some { s with warehouseGrid := g' }
  | .tick arrived =>
    if s.hasDestination ∧ s.currentPathIndex < s.path.length then
      if arrived then
        some { s with robotPos := s.path.getD s.currentPathIndex s.robotPos,
                      currentPathIndex := s.currentPathIndex + 1 }
      else some s
    else some s

/-- The initial program state: all-free grid, robot at `(0,0)`, no
destination, BFS selected, empty path; the layout file's initial contents
are a parameter. -/
def initState (f0 : Option (List Int)) : SimState :=
  ⟨fun _ => 0, ⟨0, 0⟩, ⟨0, 0⟩, false, false, [], 0, f0⟩

/-- Reachability under the event-step relation. -/
def Reaches (a b : SimState) : Prop :=
  Relation.ReflTransGen (fun s t => ∃ e, stepEv s e = some t) a b

/-- Run a list of events from a state (`none` as soon as a step is
undefined). -/
def runEvents (s : SimState) : List Ev → Option SimState
  | [] => some s
  | e :: rest =>
    match stepEv s e with
    | none => none
    | some t => runEvents t rest


/-! ## Specification-layer definitions (routes, distance, reconstruction) -/

/-- `IsRoute g s l t`: `l` is the cell sequence of a 4-connected walk from
`s` (excluded) to `t` (included when `l ≠ []`), every cell of `l` being in
bounds and Free.  `l = []` means `s = t`. -/
def IsRoute (g : Grid) : Point → List Point → Point → Prop
  | s, [], t => s = t
  | s, c :: l, t => c ∈ neighbors s ∧ validCell g c ∧ IsRoute g c l t

/-- Decidability of `IsRoute` (witness evaluation). -/
def decIsRoute (g : Grid) : ∀ (s : Point) (l : List Point) (t : Point),
    Decidable (IsRoute g s l t)
  | s, [], t => decidable_of_iff (s = t) Iff.rfl
  | s, c :: l, t =>
    haveI := decIsRoute g c l t
    decidable_of_iff (c ∈ neighbors s ∧ validCell g c ∧ IsRoute g c l t) Iff.rfl

instance (g : Grid) (s : Point) (l : List Point) (t : Point) :
    Decidable (IsRoute g s l t) := decIsRoute g s l t

/-- The set of lengths of routes between two cells. -/
def distSet (g : Grid) (s t : Point) : Set ℕ :=
  {n | ∃ l, IsRoute g s l t ∧ l.length = n}

/-- The 300 in-bounds cells, as a finset. -/
def boundedPoints : Finset Point :=
  (Finset.Icc (0 : Int) (COLS - 1) ×ˢ Finset.Icc (0 : Int) (ROWS - 1)).image
    fun q => ⟨q.1, q.2⟩

/-- `ReconRel par start c l`: walking the parent pointers from `c` back to
`start` terminates, and the resulting (start-to-`c` ordered) cell list is
`l`. -/
inductive ReconRel (par : Point → Point) (start : Point) : Point → List Point → Prop where
  | base : ReconRel par start start []
  | step {c : Point} {l : List Point} : c ≠ start → ReconRel par start (par c) l →
      ReconRel par start c (l ++ [c])


/-! ## Proof-layer definitions (measures, micro-steps, fixtures) -/

/-- The body of `bfsExpand`'s neighbour loop, named for the proofs. -/
def bfsMicro (g : Grid) (current : Point) (st : BfsState) (d : Int × Int) : BfsState :=
  let n : Point := ⟨current.x + d.1, current.y + d.2⟩
  if isValidGridPosition g n.x n.y && !st.visited n then
    ⟨st.queue ++ [n], upd st.visited n true, upd st.parents n current⟩
  else st

/-- Number of unvisited in-bounds cells. -/
def unvisCount (vis : Point → Bool) : ℕ :=
  (boundedPoints.filter fun p => vis p = false).card

/-- Termination measure of the BFS loop: every iteration pops one queue
cell, and every enqueue freshly visits an in-bounds cell. -/
def bfsMeasure (st : BfsState) : ℕ :=
  st.queue.length + 2 * unvisCount st.visited

/-- The all-free grid (the program's initial `warehouseGrid`). -/
def freeGrid : Grid := fun _ => 0

/-- A grid with a single obstacle at the origin (test fixture). -/
def obstacleGrid00 : Grid := fun p => if p = ⟨0, 0⟩ then 1 else 0

/-- A grid whose obstacles at (1,0) and (0,1) wall off the origin
(test fixture for immediate search failure). -/
def wallGrid : Grid := fun p => if p = ⟨1, 0⟩ ∨ p = ⟨0, 1⟩ then 1 else 0

/-- Event trace exhibiting a progress index above the path length:
set a destination one cell away, let the robot arrive, then reset. -/
def c3trace : List Ev := [Ev.leftClick 1 0, Ev.tick true, Ev.keyR]

/-! ## BFS invariant definitions -/

/-- Queue ordering relation: consecutive queue cells have non-decreasing
true distance, never jumping by more than one. -/
def dRel (g : Grid) (s : Point) (a b : Point) : Prop :=
  sInf (distSet g s a) ≤ sInf (distSet g s b) ∧
    sInf (distSet g s b) ≤ sInf (distSet g s a) + 1

/-- Per-visited-cell invariant of the BFS: the cell is the start or a
valid cell, and its parent chain reconstructs a shortest route to it all
of whose cells are visited. -/
structure BfsCell (g : Grid) (s : Point) (st : BfsState) (c : Point) : Prop where
  valid : c = s ∨ validCell g c
  chain : ∃ l, ReconRel st.parents s c l ∧ IsRoute g s l c ∧
    IsLeast (distSet g s c) l.length ∧ ∀ x ∈ l, st.visited x = true

/-- The global loop invariant of `findPath`. -/
structure BInv (g : Grid) (s ed : Point) (st : BfsState) : Prop where
  vis_s : st.visited s = true
  cell : ∀ c, st.visited c = true → BfsCell g s st c
  queue_vis : ∀ c ∈ st.queue, st.visited c = true
  nodup : st.queue.Nodup
  sorted : st.queue.Pairwise (dRel g s)
  closed : ∀ c, st.visited c = true → c ∉ st.queue →
    ∀ n ∈ neighbors c, validCell g n → st.visited n = true
  ed_pending : st.visited ed = true → ed ∈ st.queue

/-- Mid-expansion invariant: state of the neighbour loop of `findPath`
after the directions not in `pending` have been processed.  `st` is the
state at the loop head (whose queue was `current :: rest`) and `dc` the
true distance of `current`. -/
structure BfsMid (g : Grid) (s ed current : Point) (rest : List Point)
    (st : BfsState) (dc : ℕ) (pending : List (Int × Int)) (m : BfsState) : Prop where
  mono : ∀ c, st.visited c = true → m.visited c = true
  cell : ∀ c, m.visited c = true → BfsCell g s m c
  queue_vis : ∀ c ∈ m.queue, m.visited c = true
  nodup : m.queue.Nodup
  sorted : m.queue.Pairwise (dRel g s)
  queue_d : ∀ a ∈ m.queue, dc ≤ sInf (distSet g s a) ∧ sInf (distSet g s a) ≤ dc + 1
  closed_ne : ∀ c, m.visited c = true → c ∉ m.queue → c ≠ current →
    ∀ n ∈ neighbors c, validCell g n → m.visited n = true
  cur_notin : current ∉ m.queue
  cur_done : ∀ d ∈ dirs, d ∉ pending →
    validCell g ⟨current.x + d.1, current.y + d.2⟩ →
    m.visited ⟨current.x + d.1, current.y + d.2⟩ = true
  ed_pending : m.visited ed = true → ed ∈ m.queue
  meas : bfsMeasure m ≤ rest.length + 2 * unvisCount st.visited

/-! ## Heap predicates and abstract frontier laws -/

/-- The binary-heap shape invariant maintained by `std::push_heap` /
`std::pop_heap` for this comparator: every non-root slot is at least its
parent (a min-heap on the f-cost). -/
def IsHeap (a : List Entry) : Prop :=
  ∀ i, 0 < i → i < a.length → (getE a ((i - 1) / 2)).2 ≤ (getE a i).2

/-- Heap-with-a-hole: all parent/child inequalities not involving the
hole, plus the grandparent bound over the hole's children. -/
def HeapHole (a : List Entry) (hole : ℕ) : Prop :=
  (∀ j, 0 < j → j < a.length → j ≠ hole → (j - 1) / 2 ≠ hole →
    (getE a ((j - 1) / 2)).2 ≤ (getE a j).2) ∧
  (∀ j, 0 < j → j < a.length → (j - 1) / 2 = hole → 0 < hole →
    (getE a ((hole - 1) / 2)).2 ≤ (getE a j).2)

/-- The value to be sifted up is below the hole's children. -/
def ValBelow (a : List Entry) (hole : ℕ) (value : Entry) : Prop :=
  ∀ j, 0 < j → j < a.length → (j - 1) / 2 = hole → value.2 ≤ (getE a j).2

/-- An abstract open-set discipline: a well-formedness predicate closed
under push and pop, with push and pop acting on the entry multiset in the
obvious way and the top slot holding an entry of minimal f-cost.  Both the
`std::priority_queue` binary heap of `findPathA` and the FIFO-stable
sorted frontier of the spec's reference A* satisfy these laws. -/
structure FrontierLaws where
  pushF : List Entry → Entry → List Entry
  popF : List Entry → List Entry
  ok : List Entry → Prop
  ok_nil : ok []
  ok_push : ∀ l x, ok l → ok (pushF l x)
  push_perm : ∀ l x, (↑(pushF l x) : Multiset Entry) = ↑l + {x}
  ok_pop : ∀ l, ok l → l ≠ [] → ok (popF l)
  pop_perm : ∀ l, ok l → l ≠ [] → (↑l : Multiset Entry) = ↑(popF l) + {getE l 0}
  top_min : ∀ l, ok l → ∀ e ∈ l, (getE l 0).2 ≤ e.2

/-! ## A* invariant definitions -/

/-- The body of `astarExpand`'s neighbour loop, named for the proofs. -/
def astarMicro (g : Grid) (ed current : Point)
    (pushF : List Entry → Entry → List Entry) (st : AStarState)
    (d : Int × Int) : AStarState :=
  let n : Point := ⟨current.x + d.1, current.y + d.2⟩
  if isValidGridPosition g n.x n.y && !st.visited n then
    let newGCost := st.gCost current + 1
    let hCost := |n.x - ed.x| + |n.y - ed.y|
    let fCost := newGCost + hCost
    if newGCost < st.gCost n then
      ⟨pushF st.openList (n, fCost), st.visited,
        upd st.parents n current, upd st.gCost n newGCost⟩
    else st
  else st

/-- Per-cell potential: an upper bound on the number of future strict
decreases of the cell's g-cost (`INT_MAX` counting as 301, since after the
first relaxation the g-cost stays in `[0, 300]`). -/
def pot (x : Int) : ℕ := if x = INT_MAX then 301 else x.toNat

/-- Sum of the potentials of the in-bounds cells. -/
def potSum (gc : Point → Int) : ℕ := boundedPoints.sum fun p => pot (gc p)

/-- Termination measure of the A* loop: each iteration pops one entry, and
each push is paid for by a strict g-cost decrease. -/
def astarMeasure (st : AStarState) : ℕ := st.openList.length + potSum st.gCost

/-- The global loop invariant of `findPathA` (for any frontier satisfying
the laws): visited cells carry their exact graph distance, g-costs are
route lengths with a parent-pointer chain witnessing them, settled cells
are relaxed, and every touched-but-unvisited cell has a frontier entry
whose f-cost does not exceed its g-cost plus the Manhattan heuristic. -/
structure AInv (g : Grid) (s ed : Point) (st : AStarState) : Prop where
  ed_unvis : st.visited ed = false
  gs : st.gCost s = 0
  gval : ∀ u, st.gCost u ≠ INT_MAX →
    0 ≤ st.gCost u ∧ st.gCost u ≤ 300 ∧ (st.gCost u).toNat ∈ distSet g s u
  vis_g : ∀ u, st.visited u = true →
    st.gCost u ≠ INT_MAX ∧ IsLeast (distSet g s u) (st.gCost u).toNat
  vis_valid : ∀ u, st.visited u = true → u = s ∨ validCell g u
  chain : ∀ u, st.gCost u ≠ INT_MAX →
    ∃ l, ReconRel st.parents s u l ∧ IsRoute g s l u ∧
      (l.length : Int) ≤ st.gCost u ∧ ∀ x ∈ l, x ≠ u → st.visited x = true
  closed : ∀ v, st.visited v = true → ∀ n ∈ neighbors v, validCell g n →
    st.visited n = true ∨ st.gCost n ≤ st.gCost v + 1
  pending : ∀ u, st.visited u = false → st.gCost u ≠ INT_MAX →
    ∃ f, (u, f) ∈ st.openList ∧ f ≤ st.gCost u + manhattan u ed
  entries : ∀ e ∈ st.openList, (e.1 = s ∧ e.2 = 0) ∨
    (validCell g e.1 ∧ st.gCost e.1 ≠ INT_MAX ∧
      st.gCost e.1 + manhattan e.1 ed ≤ e.2)

/-- Mid-expansion invariant of the A* neighbour loop: `current` (already
popped and marked) has been relaxed in the directions not in `pending`;
`rest` and `g0` record the frontier and g-costs right after the pop, for
the measure bookkeeping. -/
structure AMid (g : Grid) (s ed current : Point) (rest : List Entry)
    (g0 : Point → Int) (pending : List (Int × Int)) (m : AStarState) : Prop where
  ed_unvis : m.visited ed = false
  gs : m.gCost s = 0
  gval : ∀ u, m.gCost u ≠ INT_MAX →
    0 ≤ m.gCost u ∧ m.gCost u ≤ 300 ∧ (m.gCost u).toNat ∈ distSet g s u
  vis_g : ∀ u, m.visited u = true →
    m.gCost u ≠ INT_MAX ∧ IsLeast (distSet g s u) (m.gCost u).toNat
  vis_valid : ∀ u, m.visited u = true → u = s ∨ validCell g u
  vis_c : m.visited current = true
  chain : ∀ u, m.gCost u ≠ INT_MAX →
    ∃ l, ReconRel m.parents s u l ∧ IsRoute g s l u ∧
      (l.length : Int) ≤ m.gCost u ∧ ∀ x ∈ l, x ≠ u → m.visited x = true
  closed_ne : ∀ v, m.visited v = true → v ≠ current →
    ∀ n ∈ neighbors v, validCell g n →
      m.visited n = true ∨ m.gCost n ≤ m.gCost v + 1
  cur_done : ∀ d ∈ dirs, d ∉ pending →
    validCell g ⟨current.x + d.1, current.y + d.2⟩ →
    m.visited ⟨current.x + d.1, current.y + d.2⟩ = true ∨
      m.gCost ⟨current.x + d.1, current.y + d.2⟩ ≤ m.gCost current + 1
  pend_inv : ∀ u, m.visited u = false → m.gCost u ≠ INT_MAX →
    ∃ f, (u, f) ∈ m.openList ∧ f ≤ m.gCost u + manhattan u ed
  entries : ∀ e ∈ m.openList, (e.1 = s ∧ e.2 = 0) ∨
    (validCell g e.1 ∧ m.gCost e.1 ≠ INT_MAX ∧
      m.gCost e.1 + manhattan e.1 ed ≤ e.2)
  meas : m.openList.length + potSum m.gCost ≤ rest.length + potSum g0

/-! ## Routes and graph distance (specification layer) -/

@[simp] theorem isRoute_nil {g : Grid} {s t : Point} : IsRoute g s [] t ↔ s = t :=
  Iff.rfl

@[simp] theorem isRoute_cons {g : Grid} {s c t : Point} {l : List Point} :
    IsRoute g s (c :: l) t ↔ c ∈ neighbors s ∧ validCell g c ∧ IsRoute g c l t :=
  Iff.rfl

theorem IsRoute.valid_of_mem {g : Grid} {s t p : Point} :
    ∀ {l : List Point}, IsRoute g s l t → p ∈ l → validCell g p := by
  intro l
  induction l generalizing s with
  | nil => intro _ h; simp at h
  | cons c l ih =>
    rintro ⟨_, hc, hr⟩ hp
    rcases List.mem_cons.1 hp with rfl | hp
    · exact hc
    · exact ih hr hp

theorem IsRoute.last_eq {g : Grid} {s t : Point} :
    ∀ {l : List Point}, IsRoute g s l t → l ≠ [] → l.getLast? = some t := by
  intro l
  induction l generalizing s with
  | nil => intro _ h; exact absurd rfl h
  | cons c l ih =>
    rintro ⟨_, _, hr⟩ _
    cases l with
    | nil => cases hr; rfl
    | cons d m => rw [List.getLast?_cons_cons]; exact ih hr (by simp)

theorem IsRoute.append {g : Grid} {s m t : Point} :
    ∀ {l₁ l₂ : List Point}, IsRoute g s l₁ m → IsRoute g m l₂ t →
      IsRoute g s (l₁ ++ l₂) t := by
  intro l₁
  induction l₁ generalizing s with
  | nil => intro l₂ h₁ h₂; cases h₁; exact h₂
  | cons c l ih =>
    rintro l₂ ⟨hn, hv, hr⟩ h₂
    exact ⟨hn, hv, ih hr h₂⟩

theorem isRoute_append_iff {g : Grid} {s t : Point} {l₁ l₂ : List Point} :
    IsRoute g s (l₁ ++ l₂) t ↔ ∃ m, IsRoute g s l₁ m ∧ IsRoute g m l₂ t := by
  constructor
  · induction l₁ generalizing s with
    | nil => intro h; exact ⟨s, rfl, h⟩
    | cons c l ih =>
      rintro ⟨hn, hv, hr⟩
      obtain ⟨m, h₁, h₂⟩ := ih hr
      exact ⟨m, ⟨hn, hv, h₁⟩, h₂⟩
  · rintro ⟨m, h₁, h₂⟩; exact h₁.append h₂

theorem IsRoute.snoc {g : Grid} {s t c : Point} {l : List Point}
    (h : IsRoute g s l t) (hn : c ∈ neighbors t) (hv : validCell g c) :
    IsRoute g s (l ++ [c]) c :=
  h.append ⟨hn, hv, rfl⟩

theorem zero_mem_distSet_self (g : Grid) (s : Point) : 0 ∈ distSet g s s :=
  ⟨[], rfl, rfl⟩

theorem isLeast_distSet_self (g : Grid) (s : Point) : IsLeast (distSet g s s) 0 :=
  ⟨zero_mem_distSet_self g s, fun b _ => Nat.zero_le b⟩

theorem distSet_step {g : Grid} {s t c : Point} {n : ℕ}
    (h : n ∈ distSet g s t) (hn : c ∈ neighbors t) (hv : validCell g c) :
    n + 1 ∈ distSet g s c := by
  obtain ⟨l, hr, hl⟩ := h
  exact ⟨l ++ [c], hr.snoc hn hv, by simp [hl]⟩

theorem isLeast_distSet {g : Grid} {s t : Point}
    (h : (distSet g s t).Nonempty) : IsLeast (distSet g s t) (sInf (distSet g s t)) :=
  ⟨Nat.sInf_mem h, fun _ hb => Nat.sInf_le hb⟩

/-! ### Routes can be made simple -/

theorem exists_dup_split {l : List Point} (h : ¬ l.Nodup) :
    ∃ l₁ a l₂, l = l₁ ++ a :: l₂ ∧ a ∈ l₂ := by
  induction l with
  | nil => simp at h
  | cons b t ih =>
    by_cases hb : b ∈ t
    · exact ⟨[], b, t, rfl, hb⟩
    · have ht : ¬ t.Nodup := by
        intro hn; exact h (List.nodup_cons.2 ⟨hb, hn⟩)
      obtain ⟨l₁, a, l₂, rfl, ha⟩ := ih ht
      exact ⟨b :: l₁, a, l₂, rfl, ha⟩

theorem exists_shorter_of_not_nodup {g : Grid} {s t : Point} {l : List Point}
    (hr : IsRoute g s l t) (h : ¬ (s :: l).Nodup) :
    ∃ l', IsRoute g s l' t ∧ l'.length < l.length := by
  obtain ⟨L₁, a, L₂, hsplit, haL₂⟩ := exists_dup_split h
  obtain ⟨M₁, M₂, rfl⟩ := List.append_of_mem haL₂
  cases L₁ with
  | nil =>
    simp only [List.nil_append, List.cons.injEq] at hsplit
    obtain ⟨rfl, rfl⟩ := hsplit
    obtain ⟨m, _, hcons⟩ := isRoute_append_iff.1 hr
    obtain ⟨_, _, hM₂⟩ := isRoute_cons.1 hcons
    refine ⟨M₂, hM₂, ?_⟩
    simp only [List.length_append, List.length_cons]
    omega
  | cons b L₁' =>
    simp only [List.cons_append, List.cons.injEq] at hsplit
    obtain ⟨rfl, rfl⟩ := hsplit
    rw [show L₁' ++ a :: (M₁ ++ a :: M₂) = (L₁' ++ a :: M₁) ++ (a :: M₂) by simp] at hr
    obtain ⟨m, h₁, hcons⟩ := isRoute_append_iff.1 hr
    obtain ⟨_, _, hM₂⟩ := isRoute_cons.1 hcons
    obtain ⟨m', hL₁', hcons'⟩ := isRoute_append_iff.1 h₁
    obtain ⟨hn₁, hv₁, _⟩ := isRoute_cons.1 hcons'
    refine ⟨L₁' ++ a :: M₂, hL₁'.append ⟨hn₁, hv₁, hM₂⟩, ?_⟩
    simp only [List.length_append, List.length_cons]
    omega

theorem exists_simple_route_aux {g : Grid} {s : Point} :
    ∀ (n : ℕ) {l : List Point} {t : Point}, l.length < n → IsRoute g s l t →
      ∃ l', IsRoute g s l' t ∧ l'.length ≤ l.length ∧ (s :: l').Nodup := by
  intro n
  induction n with
  | zero => intro l t h; omega
  | succ n ih =>
    intro l t hlen hr
    by_cases hd : (s :: l).Nodup
    · exact ⟨l, hr, le_rfl, hd⟩
    · obtain ⟨l', hr', hlt⟩ := exists_shorter_of_not_nodup hr hd
      obtain ⟨l'', h1, h2, h3⟩ := ih (by omega) hr'
      exact ⟨l'', h1, by omega, h3⟩

theorem exists_simple_route {g : Grid} {s t : Point} {l : List Point}
    (hr : IsRoute g s l t) :
    ∃ l', IsRoute g s l' t ∧ l'.length ≤ l.length ∧ (s :: l').Nodup :=
  exists_simple_route_aux (l.length + 1) (Nat.lt_succ_self _) hr

theorem mem_boundedPoints {p : Point} : p ∈ boundedPoints ↔ inBounds p := by
  constructor
  · rintro hp
    obtain ⟨⟨qx, qy⟩, hq, rfl⟩ := Finset.mem_image.1 hp
    obtain ⟨h1, h2⟩ := Finset.mem_product.1 hq
    simp only [Finset.mem_Icc] at h1 h2
    refine ⟨h1.1, ?_, h2.1, ?_⟩ <;> [exact lt_of_le_of_lt h1.2 (by norm_num [COLS, SCREEN_WIDTH, GRID_SIZE]);
      exact lt_of_le_of_lt h2.2 (by norm_num [ROWS, SCREEN_HEIGHT, GRID_SIZE])]
  · rintro ⟨h1, h2, h3, h4⟩
    refine Finset.mem_image.2 ⟨(p.x, p.y), Finset.mem_product.2 ⟨?_, ?_⟩, rfl⟩ <;>
      simp only [Finset.mem_Icc] <;> omega

theorem card_boundedPoints : boundedPoints.card = 300 := by
  rw [boundedPoints, Finset.card_image_of_injective _ (by
    intro a b hab
    cases a; cases b
    simpa [Point.mk.injEq, Prod.ext_iff] using hab)]
  rw [Finset.card_product]
  rw [Int.card_Icc, Int.card_Icc]
  norm_num [COLS, ROWS, SCREEN_WIDTH, SCREEN_HEIGHT, GRID_SIZE]
  rfl

/-- Any cell reachable from an in-bounds start is at graph distance at
most 299 (a simple walk visits at most the 300 in-bounds cells). -/
theorem sInf_distSet_le {g : Grid} {s t : Point} (hs : inBounds s)
    (h : (distSet g s t).Nonempty) : sInf (distSet g s t) ≤ 299 := by
  obtain ⟨n, l, hr, rfl⟩ := h
  obtain ⟨l', hr', _, hd⟩ := exists_simple_route hr
  have hsub : (s :: l').toFinset ⊆ boundedPoints := by
    intro p hp
    rcases List.mem_cons.1 (List.mem_toFinset.1 hp) with rfl | hp
    · exact mem_boundedPoints.2 hs
    · have := hr'.valid_of_mem hp
      exact mem_boundedPoints.2 ⟨this.1, this.2.1, this.2.2.1, this.2.2.2.1⟩
  have hcard : (s :: l').length ≤ 300 := by
    rw [← List.toFinset_card_of_nodup hd]
    exact le_trans (Finset.card_le_card hsub) (le_of_eq card_boundedPoints)
  have : l'.length ≤ 299 := by simpa using hcard
  exact le_trans (Nat.sInf_le ⟨l', hr', rfl⟩) this

/-! ## Basic lemmas about the embedded primitives -/

@[simp] theorem upd_self {α : Type} (f : Point → α) (p : Point) (v : α) :
    upd f p v p = v := by simp [upd]

theorem upd_ne {α : Type} (f : Point → α) {p q : Point} (v : α) (h : q ≠ p) :
    upd f p v q = f q := by simp [upd, h]

theorem isValid_iff_validCell (g : Grid) (p : Point) :
    isValidGridPosition g p.x p.y = true ↔ validCell g p := by
  simp only [isValidGridPosition, validCell, Bool.and_eq_true, decide_eq_true_eq,
    beq_iff_eq, ge_iff_le]
  constructor
  · rintro ⟨⟨⟨⟨h1, h2⟩, h3⟩, h4⟩, h5⟩; exact ⟨h1, h2, h3, h4, h5⟩
  · rintro ⟨h1, h2, h3, h4, h5⟩; exact ⟨⟨⟨⟨h1, h2⟩, h3⟩, h4⟩, h5⟩

theorem isValid_eq_false_iff (g : Grid) (p : Point) :
    isValidGridPosition g p.x p.y = false ↔ ¬ validCell g p := by
  rw [← isValid_iff_validCell, Bool.not_eq_true, Bool.eq_false_iff, ne_eq,
    Bool.not_eq_true]

theorem mem_neighbors {p q : Point} :
    q ∈ neighbors p ↔
      q = ⟨p.x, p.y - 1⟩ ∨ q = ⟨p.x + 1, p.y⟩ ∨ q = ⟨p.x, p.y + 1⟩ ∨
        q = ⟨p.x - 1, p.y⟩ := by
  simp [neighbors, dirs, sub_eq_add_neg]

theorem ne_of_mem_neighbors {p q : Point} (h : q ∈ neighbors p) : q ≠ p := by
  obtain ⟨px, py⟩ := p
  rcases mem_neighbors.1 h with h | h | h | h <;> subst h <;>
    simp only [ne_eq, Point.mk.injEq, not_and] <;> omega

/-- The four neighbours of a cell are pairwise distinct. -/
theorem neighbors_nodup (p : Point) : (neighbors p).Nodup := by
  obtain ⟨px, py⟩ := p
  simp only [neighbors, dirs, List.map_cons, List.map_nil, List.nodup_cons,
    List.mem_cons, List.not_mem_nil, or_false, List.nodup_nil, and_true,
    Point.mk.injEq, not_or, true_and, not_false_eq_true]
  omega

theorem manhattan_nonneg (a b : Point) : 0 ≤ manhattan a b := by
  have := abs_nonneg (a.x - b.x)
  have := abs_nonneg (a.y - b.y)
  simp only [manhattan]; omega

@[simp] theorem manhattan_self (a : Point) : manhattan a a = 0 := by
  simp [manhattan]

/-- One grid step changes the Manhattan distance to a fixed cell by at most
one (consistency of the heuristic). -/
theorem manhattan_le_succ_of_mem_neighbors {p q e : Point}
    (h : q ∈ neighbors p) : manhattan p e ≤ manhattan q e + 1 := by
  have habs : ∀ a b : Int, |a - b| ≤ |a + 1 - b| + 1 ∧ |a - b| ≤ |a - 1 - b| + 1 := by
    intro a b
    constructor <;> [rcases abs_cases (a + 1 - b) with ⟨h1, h2⟩ | ⟨h1, h2⟩;
       rcases abs_cases (a - 1 - b) with ⟨h1, h2⟩ | ⟨h1, h2⟩] <;>
      rw [h1] <;> rcases abs_cases (a - b) with ⟨h3, h4⟩ | ⟨h3, h4⟩ <;> omega
  rcases mem_neighbors.1 h with h | h | h | h <;> subst h <;>
    simp only [manhattan] <;>
    [have := (habs p.y e.y).2; have := (habs p.x e.x).1;
     have := (habs p.y e.y).1; have := (habs p.x e.x).2] <;> omega

/-- Along a route, the Manhattan distance to any cell changes by at most
the route length. -/
theorem manhattan_le_route {g : Grid} {e : Point} :
    ∀ {l : List Point} {w u : Point}, IsRoute g w l u →
      manhattan w e ≤ l.length + manhattan u e := by
  intro l
  induction l with
  | nil => rintro w u rfl; simp
  | cons c l ih =>
    rintro w u ⟨hn, _, hr⟩
    have h1 := @manhattan_le_succ_of_mem_neighbors w c e hn
    have h2 := ih hr
    simp only [List.length_cons]
    omega

/-! ## Parent-pointer reconstruction -/

theorem ReconRel.eval {par : Point → Point} {start : Point} :
    ∀ {c : Point} {l : List Point}, ReconRel par start c l →
      ∀ (fuel : ℕ) (acc : List Point), l.length ≤ fuel →
        reconstructPath par start fuel c acc = l ++ acc.reverse := by
  intro c l h
  induction h with
  | base =>
    intro fuel acc _
    cases fuel <;> simp [reconstructPath]
  | step hne _ ih =>
    intro fuel acc hlen
    match fuel with
    | 0 => simp at hlen
    | fuel + 1 =>
      rw [reconstructPath, if_neg hne, ih fuel (acc ++ [_])
        (by simpa using Nat.lt_succ_iff.1 (lt_of_lt_of_le (by simp) hlen))]
      simp

theorem ReconRel.start_not_mem {par : Point → Point} {start : Point} :
    ∀ {c : Point} {l : List Point}, ReconRel par start c l → start ∉ l := by
  intro c l h
  induction h with
  | base => simp
  | step hne _ ih => simp [ih, Ne.symm hne]

theorem ReconRel.nil_inv {par : Point → Point} {start c : Point}
    (h : ReconRel par start c []) : c = start := by
  generalize hl : ([] : List Point) = l at h
  induction h with
  | base => rfl
  | step hne h' ih => simp at hl

theorem ReconRel.ne_start_of_ne_nil {par : Point → Point} {start c : Point}
    {l : List Point} (h : ReconRel par start c l) : l ≠ [] → c ≠ start := by
  induction h with
  | base => intro hl; exact absurd rfl hl
  | step hne _ _ => intro _; exact hne

theorem ReconRel.mem_self {par : Point → Point} {start c : Point}
    {l : List Point} (h : ReconRel par start c l) (hl : l ≠ []) : c ∈ l := by
  induction h with
  | base => exact absurd rfl hl
  | step _ _ _ => simp

/-- Reconstruction is unaffected by parent updates outside the chain. -/
theorem ReconRel.update {par : Point → Point} {start : Point} {n v : Point} :
    ∀ {c : Point} {l : List Point}, ReconRel par start c l → n ∉ l →
      ReconRel (upd par n v) start c l := by
  intro c l h
  induction h with
  | base => intro _; exact .base
  | step hne hr ih =>
    intro hn
    simp only [List.mem_append, List.mem_singleton, not_or] at hn
    refine .step hne ?_
    rw [show upd par n v _ = par _ from upd_ne par v (fun h' => hn.2 h'.symm)]
    exact ih hn.1

/-! ## Layout persistence -/

theorem length_flatMap_range_map (f : ℕ → ℕ → Int) (a b : ℕ) :
    ((List.range a).flatMap fun i => (List.range b).map fun j => f i j).length
      = a * b := by
  induction a with
  | zero => simp
  | succ a ih =>
    rw [List.range_succ, List.flatMap_append]
    simp [ih, Nat.succ_mul]

theorem flatMap_range_map_getD (f : ℕ → ℕ → Int) :
    ∀ (a b i j : ℕ) (d : Int), i < a → j < b →
      ((List.range a).flatMap fun i => (List.range b).map fun j => f i j).getD
        (i * b + j) d = f i j := by
  intro a
  induction a with
  | zero => intro b i j d hi _; omega
  | succ a ih =>
    intro b i j d hi hj
    rw [List.range_succ, List.flatMap_append]
    rcases Nat.lt_or_ge i a with hia | hia
    · rw [List.getD_append]
      · exact ih b i j d hia hj
      · rw [length_flatMap_range_map]
        calc i * b + j < i * b + b := by omega
        _ = (i + 1) * b := by ring
        _ ≤ a * b := Nat.mul_le_mul_right b (by omega)
    · have hia' : i = a := by omega
      subst hia'
      rw [List.getD_append_right]
      · rw [length_flatMap_range_map]
        have : i * b + j - i * b = j := by omega
        rw [this]
        simp only [List.flatMap_cons, List.flatMap_nil, List.append_nil]
        rw [List.getD_eq_getElem _ _ (by simpa using hj)]
        simp
      · rw [length_flatMap_range_map]; omega

/-- Round-trip: loading the saved token sequence restores every in-bounds
cell. -/
theorem loadLayout_saveLayout (g : Grid) (p : Point) (hp : inBounds p) :
    (loadLayout g (some (saveLayout g))).1 p = g p := by
  obtain ⟨px, py⟩ := p
  obtain ⟨h1, h2, h3, h4⟩ := hp
  simp only at h1 h2 h3 h4
  have hx20 : px < 20 := h2
  have hy15 : py < 15 := h4
  show (if 0 ≤ (Point.mk px py).x ∧ (Point.mk px py).x < COLS ∧
        0 ≤ (Point.mk px py).y ∧ (Point.mk px py).y < ROWS then
      (saveLayout g).getD ((Point.mk px py).y * COLS + (Point.mk px py).x).toNat
        (g ⟨px, py⟩)
    else g ⟨px, py⟩) = g ⟨px, py⟩
  rw [if_pos ⟨h1, h2, h3, h4⟩]
  have hidx : ((Point.mk px py).y * COLS + (Point.mk px py).x).toNat
      = py.toNat * 20 + px.toNat := by
    show (py * 20 + px).toNat = _
    omega
  rw [saveLayout, hidx, show ROWS.toNat = 15 from rfl, show COLS.toNat = 20 from rfl,
    flatMap_range_map_getD (fun i j => g ⟨(j : Int), (i : Int)⟩) 15 20 py.toNat px.toNat
      (g ⟨px, py⟩) (by omega) (by omega)]
  congr 1
  simp only [Point.mk.injEq]
  omega

/-- On open failure `loadLayout` reports the error and leaves the grid
untouched; on success it reports no error and writes every in-bounds cell
with its token, the cell keeping its previous value once the tokens have
run out. -/
theorem loadLayout_cases (g : Grid) :
    loadLayout g none = (g, true) ∧
    ∀ (ts : List Int),
      (loadLayout g (some ts)).2 = false ∧
      (∀ p, inBounds p →
        (loadLayout g (some ts)).1 p
          = ts.getD (p.y * COLS + p.x).toNat (g p)) ∧
      (∀ p, ¬ inBounds p → (loadLayout g (some ts)).1 p = g p) := by
  refine ⟨rfl, fun ts => ⟨rfl, fun p hp => ?_, fun p hp => ?_⟩⟩
  · have hp' : 0 ≤ p.x ∧ p.x < COLS ∧ 0 ≤ p.y ∧ p.y < ROWS := hp
    show (if 0 ≤ p.x ∧ p.x < COLS ∧ 0 ≤ p.y ∧ p.y < ROWS then
      ts.getD (p.y * COLS + p.x).toNat (g p) else g p) = _
    rw [if_pos hp']
  · have hp' : ¬ (0 ≤ p.x ∧ p.x < COLS ∧ 0 ≤ p.y ∧ p.y < ROWS) := hp
    show (if 0 ≤ p.x ∧ p.x < COLS ∧ 0 ≤ p.y ∧ p.y < ROWS then
      ts.getD (p.y * COLS + p.x).toNat (g p) else g p) = _
    rw [if_neg hp']

/-! ## Event-loop lemmas -/

theorem runEvents_reaches {a : SimState} :
    ∀ {l : List Ev} {b : SimState}, runEvents a l = some b → Reaches a b := by
  intro l
  induction l generalizing a with
  | nil =>
    intro b h
    cases h
    exact Relation.ReflTransGen.refl
  | cons e rest ih =>
    intro b h
    rw [runEvents] at h
    split at h
    · exact absurd h (by simp)
    · next t ht => exact Relation.ReflTransGen.head ⟨e, ht⟩ (ih h)

/-- The conditional controller invariant: whenever a destination is set,
the progress index is at most the path length. -/
theorem reaches_index_le {f0 : Option (List Int)} {s : SimState}
    (h : Reaches (initState f0) s) :
    s.hasDestination = true → s.currentPathIndex ≤ s.path.length := by
  induction h with
  | refl => intro h; simp [initState] at h
  | tail _ hstep ih =>
    obtain ⟨e, he⟩ := hstep
    cases e with
    | leftClick gx gy =>
      rw [stepEv] at he
      split at he <;> cases he
      · intro _; exact Nat.zero_le _
      · exact ih
    | rightClick gx gy =>
      rw [stepEv] at he
      split at he
      · split at he <;> cases he
        · intro _; exact Nat.zero_le _
        · exact ih
      · cases he
    | keyR =>
      cases he
      intro h; simp at h
    | keyT =>
      rw [stepEv] at he
      split at he <;> cases he
      · intro _; exact Nat.zero_le _
      · exact ih
    | keyS =>
      cases he
      exact ih
    | keyL =>
      rw [stepEv] at he
      split at he <;> cases he
      · intro _; exact Nat.zero_le _
      · exact ih
    | tick arrived =>
      rw [stepEv] at he
      split at he
      · next hcond =>
        split at he <;> cases he
        · intro _
          simp only [List.length_cons] at *
          omega
        · exact ih
      · cases he
        exact ih

/-! ## Claim theorems: controller and persistence -/

/-- Claim C3, counterexample: after setting a one-step destination,
letting the robot arrive (index becomes 1) and pressing `R` (which clears
the path but not the index), a state with `currentPathIndex >
path.size()` is reachable — the claimed unconditional invariant fails. -/
theorem C3_counterexample :
    ∃ s, Reaches (initState none) s ∧ s.path.length < s.currentPathIndex := by
  rcases hrun : runEvents (initState none) c3trace with _ | s
  · have hsome : (runEvents (initState none) c3trace).isSome = true := rfl
    rw [hrun] at hsome
    exact Bool.noConfusion hsome
  · refine ⟨s, runEvents_reaches hrun, ?_⟩
    have h1 : (runEvents (initState none) c3trace).map
        (fun t => (t.currentPathIndex, t.path.length)) = some (1, 0) := rfl
    rw [hrun] at h1
    simp only [Option.map_some', Option.some.injEq, Prod.mk.injEq] at h1
    omega

/-- Claim C3, amended: in every reachable state the progress index is at
most the path length whenever a destination is set, and the advance event
increments the index only while it is strictly below the path length; the
reset key clears the goal and the path but leaves `currentPathIndex`
untouched, so the unconditional bound can fail right after a reset. -/
theorem C3_index_invariant (f0 : Option (List Int)) (s : SimState)
    (h : Reaches (initState f0) s) :
    (s.hasDestination = true → s.currentPathIndex ≤ s.path.length) ∧
    (stepEv s Ev.keyR = some { s with hasDestination := false, path := [] }) ∧
    (∀ arrived t, stepEv s (Ev.tick arrived) = some t →
      t.currentPathIndex ≠ s.currentPathIndex →
      s.currentPathIndex < s.path.length) := by
  refine ⟨reaches_index_le h, rfl, ?_⟩
  intro arrived t ht hne
  rw [stepEv] at ht
  split at ht
  · next hcond =>
    split at ht <;> cases ht
    · exact hcond.2
    · exact absurd rfl hne
  · cases ht
    exact absurd rfl hne

/-- Claim C3, witness: the amended invariant applied to the (concrete,
destination-holding) state reached by a single left click. -/
theorem C3_index_invariant_witness :
    (runEvents (initState none) [Ev.leftClick 1 0]).map
        (fun t => decide (t.currentPathIndex ≤ t.path.length))
      = some true := by
  rcases hrun : runEvents (initState none) [Ev.leftClick 1 0] with _ | s
  · have hsome : (runEvents (initState none) [Ev.leftClick 1 0]).isSome
        = true := rfl
    rw [hrun] at hsome
    exact Bool.noConfusion hsome
  · have hd : (runEvents (initState none) [Ev.leftClick 1 0]).map
        (fun t => t.hasDestination) = some true := rfl
    rw [hrun] at hd
    simp only [Option.map_some', Option.some.injEq] at hd
    have hle := (C3_index_invariant none s (runEvents_reaches hrun)).1 hd
    simp only [Option.map_some', Option.some.injEq, decide_eq_true_eq]
    exact hle

/-- Claim C4, counterexample: a truncated one-token layout file is loaded
with no reported error, and it does modify the grid (the obstacle at the
origin is overwritten with the single token `0`) — refuting both the
"reported as an error outcome" and the "grid left entirely unmodified"
parts for truncated files. -/
theorem C4_counterexample :
    (loadLayout obstacleGrid00 (some [0])).1 ⟨0, 0⟩ = 0 ∧
    obstacleGrid00 ⟨0, 0⟩ = 1 ∧
    (loadLayout obstacleGrid00 (some [0])).2 = false := by
  exact ⟨by decide, by decide, rfl⟩

/-- Claim C4, amended: a missing/unreadable file is reported as a load
error and leaves the grid unmodified; a file that opens is never reported
as an error, each in-bounds cell receives its token in row-major order,
cells beyond the supplied tokens keep their previous values (the
exhausted stream's sentry fails and `operator>>` leaves its target
unmodified), and out-of-bounds cells are untouched. -/
theorem C4_load_behaviour (g : Grid) :
    loadLayout g none = (g, true) ∧
    ∀ (ts : List Int),
      (loadLayout g (some ts)).2 = false ∧
      (∀ p, inBounds p →
        (loadLayout g (some ts)).1 p
          = ts.getD (p.y * COLS + p.x).toNat (g p)) ∧
      (∀ p, inBounds p → ts.length ≤ (p.y * COLS + p.x).toNat →
        (loadLayout g (some ts)).1 p = g p) ∧
      (∀ p, ¬ inBounds p → (loadLayout g (some ts)).1 p = g p) := by
  obtain ⟨h1, h2⟩ := loadLayout_cases g
  refine ⟨h1, fun ts => ?_⟩
  obtain ⟨h3, h4, h5⟩ := h2 ts
  refine ⟨h3, h4, fun p hp hlen => ?_, h5⟩
  rw [h4 p hp, List.getD_eq_default _ _ hlen]

/-- Claim C4, witness: the amended behaviour of the one-token file at the
overwritten origin and at the untouched next cell. -/
theorem C4_load_behaviour_witness :
    ((loadLayout obstacleGrid00 (some [0])).1 ⟨0, 0⟩
      = ([0] : List Int).getD (((0 : Int)) * COLS + (0 : Int)).toNat
          (obstacleGrid00 ⟨0, 0⟩)) ∧
    (loadLayout obstacleGrid00 (some [0])).1 ⟨1, 0⟩ = obstacleGrid00 ⟨1, 0⟩ :=
  ⟨(((C4_load_behaviour obstacleGrid00).2 [0]).2.1) ⟨0, 0⟩ (by decide),
    (((C4_load_behaviour obstacleGrid00).2 [0]).2.2.1) ⟨1, 0⟩ (by decide)
      (by decide)⟩

/-- Claim C5, counterexample: the right-click handler has no bounds
check, so a toggle at the out-of-bounds cell `(20, 7)` performs an
out-of-range `std::vector` subscript (undefined behaviour, modelled
`none`) instead of being a silent no-op that leaves the state
unchanged. -/
theorem C5_counterexample :
    stepEv (initState none) (Ev.rightClick 20 7) = none ∧
    ¬ inBounds ⟨20, 7⟩ := by
  exact ⟨rfl, by decide⟩

/-- Claim C5, amended: toggling an in-bounds cell flips exactly that cell
(`v ↦ 1 - v`) and leaves every other cell unchanged; toggling an
out-of-bounds cell performs an unchecked out-of-range grid access
(undefined behaviour), not a silent no-op. -/
theorem C5_toggle_behaviour (s : SimState) (gx gy : Int) :
    (¬ inBounds ⟨gx, gy⟩ → stepEv s (Ev.rightClick gx gy) = none) ∧
    (inBounds ⟨gx, gy⟩ → ∃ t, stepEv s (Ev.rightClick gx gy) = some t ∧
      t.warehouseGrid ⟨gx, gy⟩ = 1 - s.warehouseGrid ⟨gx, gy⟩ ∧
      ∀ p, p ≠ ⟨gx, gy⟩ → t.warehouseGrid p = s.warehouseGrid p) := by
  constructor
  · intro h
    rw [stepEv, if_neg h]
  · intro h
    rw [stepEv, if_pos h]
    by_cases hd : s.hasDestination = true
    · rw [if_pos hd]
      exact ⟨_, rfl, upd_self _ _ _, fun p hp => upd_ne _ _ hp⟩
    · rw [if_neg hd]
      exact ⟨_, rfl, upd_self _ _ _, fun p hp => upd_ne _ _ hp⟩

/-- Claim C5, witness: the in-bounds branch of the amended claim at cell
`(3, 4)` of the initial state. -/
theorem C5_toggle_behaviour_witness :
    ∃ t, stepEv (initState none) (Ev.rightClick 3 4) = some t ∧
      t.warehouseGrid ⟨3, 4⟩ = 1 - (initState none).warehouseGrid ⟨3, 4⟩ ∧
      ∀ p, p ≠ ⟨3, 4⟩ → t.warehouseGrid p = (initState none).warehouseGrid p :=
  (C5_toggle_behaviour (initState none) 3 4).2 (by decide)

/-- Claim C8 (confirmed): for a grid holding only `0`/`1`, saving and
then loading the produced file restores every in-bounds cell verbatim. -/
theorem C8_save_load_roundtrip (g : Grid)
    (_hbin : ∀ p, inBounds p → g p = 0 ∨ g p = 1) :
    ∀ p, inBounds p → (loadLayout g (some (saveLayout g))).1 p = g p :=
  fun p hp => loadLayout_saveLayout g p hp

/-- Claim C8, witness: round-trip through the file restores the obstacle
at the origin. -/
theorem C8_save_load_roundtrip_witness :
    (loadLayout obstacleGrid00 (some (saveLayout obstacleGrid00))).1 ⟨0, 0⟩
      = obstacleGrid00 ⟨0, 0⟩ :=
  C8_save_load_roundtrip obstacleGrid00
    (fun p _ => by by_cases h : p = (⟨0, 0⟩ : Point) <;> simp [obstacleGrid00, h])
    ⟨0, 0⟩ (by decide)

/-- Claim C9 (confirmed): a left click on a non-traversable cell (an
obstacle, or out of bounds) leaves the whole controller state unchanged
and invokes no search. -/
theorem C9_leftclick_frame (s : SimState) (gx gy : Int)
    (h : ¬ validCell s.warehouseGrid ⟨gx, gy⟩) :
    stepEv s (Ev.leftClick gx gy) = some s := by
  rw [stepEv,
    if_neg (fun hb => h ((isValid_iff_validCell s.warehouseGrid ⟨gx, gy⟩).1 hb))]

/-- Claim C9, witness: an out-of-bounds left click on the initial state
is a no-op. -/
theorem C9_leftclick_frame_witness :
    stepEv (initState none) (Ev.leftClick (-3) 2) = some (initState none) :=
  C9_leftclick_frame (initState none) (-3) 2 (by decide)

/-! ## BFS lemmas -/

/-- In a neighbour-closed visited set, every route from a visited cell
stays visited. -/
theorem route_closed_visited {g : Grid} {vis : Point → Bool}
    (hcl : ∀ c, vis c = true → ∀ n ∈ neighbors c, validCell g n → vis n = true) :
    ∀ (l : List Point) (a t : Point), vis a = true → IsRoute g a l t →
      vis t = true := by
  intro l
  induction l with
  | nil => rintro a t ha rfl; exact ha
  | cons c l ih =>
    rintro a t ha ⟨hn, hv, hr⟩
    exact ih c t (hcl a ha c hn hv) hr

theorem mem_head_pairwise {α : Type} {R : α → α → Prop} {x : α} {l : List α}
    (h : (x :: l).Pairwise R) : ∀ a ∈ l, R x a :=
  (List.pairwise_cons.1 h).1

/-- No-shortcut lemma: while the queue head is `current`, a route from a
visited cell whose total cost stays within `current`'s distance leads only
to visited cells. -/
theorem bfs_route_visited {g : Grid} {s ed : Point} {st : BfsState}
    (hinv : BInv g s ed st) {current : Point} {rest : List Point}
    (hq : st.queue = current :: rest) :
    ∀ (l : List Point) (a t : Point), st.visited a = true → IsRoute g a l t →
      sInf (distSet g s a) + l.length ≤ sInf (distSet g s current) →
      st.visited t = true := by
  intro l
  induction l with
  | nil => rintro a t ha rfl _; exact ha
  | cons c l ih =>
    rintro a t ha ⟨hn, hv, hr⟩ hbound
    by_cases haq : a ∈ st.queue
    · exfalso
      have hfront : dRel g s current a := by
        rw [hq] at haq
        rcases List.mem_cons.1 haq with rfl | haq
        · exact ⟨le_rfl, Nat.le_succ _⟩
        · exact mem_head_pairwise (hq ▸ hinv.sorted) a haq
      obtain ⟨hf1, _⟩ := hfront
      simp only [List.length_cons] at hbound
      omega
    · have hc : st.visited c = true := hinv.closed a ha haq c hn hv
      refine ih c t hc hr ?_
      obtain ⟨_, la, _, _, hla, _⟩ := hinv.cell a ha
      have hsa : sInf (distSet g s a) = la.length := hla.csInf_eq
      have hmem : la.length + 1 ∈ distSet g s c := distSet_step hla.1 hn hv
      have hcle : sInf (distSet g s c) ≤ la.length + 1 := Nat.sInf_le hmem
      simp only [List.length_cons] at hbound
      omega

/-- While the queue head is `current`, an unvisited valid neighbour of
`current` lies exactly one step beyond `current`'s distance. -/
theorem bfs_unvisited_dist {g : Grid} {s ed : Point} {st : BfsState}
    (hinv : BInv g s ed st) {current : Point} {rest : List Point}
    (hq : st.queue = current :: rest) {n : Point} (hn : n ∈ neighbors current)
    (hv : validCell g n) (hun : st.visited n = false) :
    IsLeast (distSet g s n) (sInf (distSet g s current) + 1) := by
  have hcv : st.visited current = true :=
    hinv.queue_vis current (by rw [hq]; exact List.mem_cons_self _ _)
  obtain ⟨_, lc, _, _, hlc, _⟩ := hinv.cell current hcv
  have hsc : sInf (distSet g s current) = lc.length := hlc.csInf_eq
  constructor
  · rw [hsc]
    exact distSet_step hlc.1 hn hv
  · intro m hm
    by_contra hlt
    push_neg at hlt
    obtain ⟨R, hR, hRlen⟩ := hm
    have hvis : st.visited n = true := by
      refine bfs_route_visited hinv hq R s n hinv.vis_s hR ?_
      have h0 : sInf (distSet g s s) = 0 := (isLeast_distSet_self g s).csInf_eq
      omega
    rw [hvis] at hun
    exact Bool.noConfusion hun

/-- Freshly visiting an in-bounds cell decrements the unvisited count. -/
theorem unvisCount_upd_true {vis : Point → Bool} {n : Point}
    (hb : inBounds n) (hun : vis n = false) :
    unvisCount (upd vis n true) + 1 = unvisCount vis := by
  unfold unvisCount
  have hsplit : boundedPoints.filter (fun p => vis p = false)
      = insert n (boundedPoints.filter fun p => upd vis n true p = false) := by
    ext p
    simp only [Finset.mem_filter, Finset.mem_insert]
    constructor
    · rintro ⟨hp, hvp⟩
      by_cases hpn : p = n
      · exact Or.inl hpn
      · exact Or.inr ⟨hp, by rw [upd_ne _ _ hpn]; exact hvp⟩
    · rintro (rfl | ⟨hp, hvp⟩)
      · exact ⟨mem_boundedPoints.2 hb, hun⟩
      · refine ⟨hp, ?_⟩
        by_cases hpn : p = n
        · subst hpn; rw [upd_self] at hvp; exact Bool.noConfusion hvp
        · rwa [upd_ne _ _ hpn] at hvp
  rw [hsplit, Finset.card_insert_of_not_mem]
  simp [upd_self]

theorem unvisCount_le (vis : Point → Bool) : unvisCount vis ≤ 300 :=
  le_trans (Finset.card_le_card (Finset.filter_subset _ _))
    (le_of_eq card_boundedPoints)

theorem mem_neighbors_of_dir {current : Point} {d : Int × Int} (hd : d ∈ dirs) :
    (⟨current.x + d.1, current.y + d.2⟩ : Point) ∈ neighbors current :=
  List.mem_map_of_mem _ hd

/-- One iteration of the neighbour loop preserves the mid-expansion
invariant. -/
theorem bfsMid_step {g : Grid} {s ed current : Point} {rest : List Point}
    {st : BfsState} {dc : ℕ} (hinv : BInv g s ed st)
    (hq : st.queue = current :: rest)
    (hdc : dc = sInf (distSet g s current))
    {d : Int × Int} (hd : d ∈ dirs) {pending : List (Int × Int)} {m : BfsState}
    (hmid : BfsMid g s ed current rest st dc (d :: pending) m) :
    BfsMid g s ed current rest st dc pending (bfsMicro g current m d) := by
  have hn_mem : (⟨current.x + d.1, current.y + d.2⟩ : Point) ∈ neighbors current :=
    mem_neighbors_of_dir hd
  set n : Point := ⟨current.x + d.1, current.y + d.2⟩ with hn_def
  rw [bfsMicro]
  by_cases hcond : (isValidGridPosition g n.x n.y && !m.visited n) = true
  · rw [if_pos hcond]
    simp only [Bool.and_eq_true, Bool.not_eq_true'] at hcond
    obtain ⟨hval, hun_m⟩ := hcond
    have hv : validCell g n := (isValid_iff_validCell g n).1 hval
    have hun_st : st.visited n = false := by
      rcases h : st.visited n with _ | _
      · rfl
      · rw [hmid.mono n h] at hun_m; exact Bool.noConfusion hun_m
    have hLeast_n : IsLeast (distSet g s n) (dc + 1) := by
      rw [hdc]; exact bfs_unvisited_dist hinv hq hn_mem hv hun_st
    have hsInf_n : sInf (distSet g s n) = dc + 1 := hLeast_n.csInf_eq
    have hcur_m : m.visited current = true :=
      hmid.mono current (hinv.queue_vis current (by rw [hq]; exact List.mem_cons_self _ _))
    obtain ⟨_, lc, hrec, hroute, hlst, hvisl⟩ := hmid.cell current hcur_m
    have hlc_len : lc.length = dc := by rw [hdc, hlst.csInf_eq]
    have hn_notin_lc : n ∉ lc := fun hmem => by
      rw [hvisl n hmem] at hun_m; exact Bool.noConfusion hun_m
    have hns : n ≠ s := fun hns => by
      rw [hns, hmid.mono s hinv.vis_s] at hun_m; exact Bool.noConfusion hun_m
    have hn_notin_q : n ∉ m.queue := fun hmem => by
      rw [hmid.queue_vis n hmem] at hun_m; exact Bool.noConfusion hun_m
    have hcur_ne_n : current ≠ n := fun h => by
      rw [← h, hcur_m] at hun_m; exact Bool.noConfusion hun_m
    refine ⟨?_, ?_, ?_, ?_, ?_, ?_, ?_, ?_, ?_, ?_, ?_⟩
    · intro c hc
      show upd m.visited n true c = true
      by_cases hcn : c = n
      · rw [hcn, upd_self]
      · rw [upd_ne _ _ hcn]; exact hmid.mono c hc
    · intro c hc
      show BfsCell g s _ c
      by_cases hcn : c = n
      · subst hcn
        refine ⟨Or.inr hv, lc ++ [n], ?_, hroute.snoc hn_mem hv, ?_, ?_⟩
        · refine ReconRel.step hns ?_
          show ReconRel (upd m.parents n current) s (upd m.parents n current n) lc
          rw [upd_self]
          exact hrec.update hn_notin_lc
        · rw [List.length_append, List.length_singleton, hlc_len]
          exact hLeast_n
        · intro x hx
          rcases List.mem_append.1 hx with hx | hx
          · show upd m.visited n true x = true
            rw [upd_ne _ _ (fun hxc : x = n => hn_notin_lc (by rwa [hxc] at hx))]
            exact hvisl x hx
          · rw [List.mem_singleton.1 hx]
            exact upd_self _ _ _
      · have hc' : upd m.visited n true c = true := hc
        rw [upd_ne _ _ hcn] at hc'
        obtain ⟨hval', l, hrec', hroute', hlst', hvis'⟩ := hmid.cell c hc'
        have hn_notin_l : n ∉ l := fun hmem => by
          rw [hvis' n hmem] at hun_m; exact Bool.noConfusion hun_m
        refine ⟨hval', l, hrec'.update hn_notin_l, hroute', hlst', ?_⟩
        intro x hx
        show upd m.visited n true x = true
        by_cases hxn : x = n
        · rw [hxn, upd_self]
        · rw [upd_ne _ _ hxn]; exact hvis' x hx
    · intro c hc
      rcases List.mem_append.1 hc with hc | hc
      · show upd m.visited n true c = true
        by_cases hcn : c = n
        · rw [hcn, upd_self]
        · rw [upd_ne _ _ hcn]; exact hmid.queue_vis c hc
      · rw [List.mem_singleton.1 hc]
        exact upd_self _ _ _
    · exact hmid.nodup.append (List.nodup_singleton n)
        (fun a ha hb => hn_notin_q (by rwa [List.mem_singleton.1 hb] at ha))
    · refine List.pairwise_append.2 ⟨hmid.sorted, List.pairwise_singleton _ _, ?_⟩
      intro a ha b hb
      rw [List.mem_singleton.1 hb]
      obtain ⟨hd1, hd2⟩ := hmid.queue_d a ha
      exact ⟨by rw [hsInf_n]; omega, by rw [hsInf_n]; omega⟩
    · intro a ha
      rcases List.mem_append.1 ha with ha | ha
      · exact hmid.queue_d a ha
      · rw [List.mem_singleton.1 ha, hsInf_n]
        omega
    · intro c hc hnotq hne n' hn' hv'
      by_cases hcn : c = n
      · exact absurd (List.mem_append.2 (Or.inr (by rw [hcn]; exact List.mem_singleton_self _))) hnotq
      · have hc' : upd m.visited n true c = true := hc
        rw [upd_ne _ _ hcn] at hc'
        have hnotq' : c ∉ m.queue := fun h => hnotq (List.mem_append.2 (Or.inl h))
        have := hmid.closed_ne c hc' hnotq' hne n' hn' hv'
        show upd m.visited n true n' = true
        by_cases hn'n : n' = n
        · rw [hn'n, upd_self]
        · rw [upd_ne _ _ hn'n]; exact this
    · intro h
      rcases List.mem_append.1 h with h | h
      · exact hmid.cur_notin h
      · exact hcur_ne_n (List.mem_singleton.1 h)
    · intro d' hd' hpend hv'
      by_cases hdd : d' = d
      · subst hdd
        exact upd_self _ _ _
      · have : d' ∉ d :: pending := fun h => by
          rcases List.mem_cons.1 h with h | h
          · exact hdd h
          · exact hpend h
        have hold := hmid.cur_done d' hd' this hv'
        show upd m.visited n true _ = true
        by_cases hx : (⟨current.x + d'.1, current.y + d'.2⟩ : Point) = n
        · rw [hx, upd_self]
        · rw [upd_ne _ _ hx]; exact hold
    · intro h
      show ed ∈ m.queue ++ [n]
      by_cases hedn : ed = n
      · exact List.mem_append.2 (Or.inr (by rw [hedn]; exact List.mem_singleton_self _))
      · have h' : upd m.visited n true ed = true := h
        rw [upd_ne _ _ hedn] at h'
        exact List.mem_append.2 (Or.inl (hmid.ed_pending h'))
    · show (m.queue ++ [n]).length + 2 * unvisCount (upd m.visited n true)
        ≤ rest.length + 2 * unvisCount st.visited
      have hdec := unvisCount_upd_true (⟨hv.1, hv.2.1, hv.2.2.1, hv.2.2.2.1⟩ : inBounds n) hun_m
      have hm := hmid.meas
      unfold bfsMeasure at hm
      rw [List.length_append, List.length_singleton]
      omega
  · rw [if_neg hcond]
    refine ⟨hmid.mono, hmid.cell, hmid.queue_vis, hmid.nodup, hmid.sorted,
      hmid.queue_d, hmid.closed_ne, hmid.cur_notin, ?_, hmid.ed_pending, hmid.meas⟩
    intro d' hd' hpend hv'
    by_cases hdd : d' = d
    · subst hdd
      simp only [Bool.and_eq_true, Bool.not_eq_true', not_and] at hcond
      have hval : isValidGridPosition g n.x n.y = true :=
        (isValid_iff_validCell g n).2 hv'
      rcases h : m.visited n with _ | _
      · exact absurd h (by simpa using hcond hval)
      · rfl
    · have : d' ∉ d :: pending := fun h => by
        rcases List.mem_cons.1 h with h | h
        · exact hdd h
        · exact hpend h
      exact hmid.cur_done d' hd' this hv'

theorem bfsMid_fold {g : Grid} {s ed current : Point} {rest : List Point}
    {st : BfsState} {dc : ℕ} (hinv : BInv g s ed st)
    (hq : st.queue = current :: rest) (hdc : dc = sInf (distSet g s current)) :
    ∀ (pending : List (Int × Int)), (∀ d ∈ pending, d ∈ dirs) →
      ∀ m, BfsMid g s ed current rest st dc pending m →
        BfsMid g s ed current rest st dc []
          (pending.foldl (bfsMicro g current) m) := by
  intro pending
  induction pending with
  | nil => intro _ m hm; exact hm
  | cons d pending' ih =>
    intro hsub m hm
    rw [List.foldl_cons]
    exact ih (fun d' hd' => hsub d' (List.mem_cons_of_mem _ hd')) _
      (bfsMid_step hinv hq hdc (hsub d (List.mem_cons_self _ _)) hm)

theorem bfsMid_init {g : Grid} {s ed current : Point} {rest : List Point}
    {st : BfsState} (hinv : BInv g s ed st)
    (hq : st.queue = current :: rest) (hned : current ≠ ed) :
    BfsMid g s ed current rest st (sInf (distSet g s current)) dirs
      ⟨rest, st.visited, st.parents⟩ := by
  have hpair := hq ▸ hinv.sorted
  refine ⟨fun c h => h, ?_, ?_, ?_, ?_, ?_, ?_, ?_, ?_, ?_, le_of_eq rfl⟩
  · intro c h
    obtain ⟨hval, hch⟩ := hinv.cell c h
    exact ⟨hval, hch⟩
  · intro c hc
    exact hinv.queue_vis c (by rw [hq]; exact List.mem_cons_of_mem _ hc)
  · exact (List.nodup_cons.1 (hq ▸ hinv.nodup)).2
  · exact (List.pairwise_cons.1 hpair).2
  · intro a ha
    exact mem_head_pairwise hpair a ha
  · intro c hc hnq hne n hn hv
    refine hinv.closed c hc ?_ n hn hv
    rw [hq]
    intro hmem
    rcases List.mem_cons.1 hmem with h | h
    · exact hne h
    · exact hnq h
  · exact (List.nodup_cons.1 (hq ▸ hinv.nodup)).1
  · intro d hd hnd
    exact absurd hd hnd
  · intro h
    have := hinv.ed_pending h
    rw [hq] at this
    rcases List.mem_cons.1 this with h' | h'
    · exact absurd h'.symm hned
    · exact h'

theorem bfs_expand_preserves {g : Grid} {s ed current : Point} {rest : List Point}
    {st : BfsState} (hinv : BInv g s ed st)
    (hq : st.queue = current :: rest) (hned : current ≠ ed) :
    BInv g s ed (bfsExpand g current ⟨rest, st.visited, st.parents⟩) ∧
    bfsMeasure (bfsExpand g current ⟨rest, st.visited, st.parents⟩) + 1
      ≤ bfsMeasure st := by
  have hfold := bfsMid_fold hinv hq rfl dirs (fun _ hd => hd) _
    (bfsMid_init hinv hq hned)
  have hexp : bfsExpand g current ⟨rest, st.visited, st.parents⟩
      = dirs.foldl (bfsMicro g current) ⟨rest, st.visited, st.parents⟩ := rfl
  rw [hexp]
  constructor
  · refine ⟨hfold.mono s hinv.vis_s, hfold.cell, hfold.queue_vis, hfold.nodup,
      hfold.sorted, ?_, hfold.ed_pending⟩
    intro c hc hnq n hn hv
    by_cases hcc : c = current
    · subst hcc
      obtain ⟨d, hd, heq⟩ := List.mem_map.1 hn
      rw [← heq] at hv ⊢
      exact hfold.cur_done d hd (List.not_mem_nil d) hv
    · exact hfold.closed_ne c hc hnq hcc n hn hv
  · have hm := hfold.meas
    have : bfsMeasure st = rest.length + 1 + 2 * unvisCount st.visited := by
      unfold bfsMeasure
      rw [hq, List.length_cons]
    omega

theorem bfs_empty_no_route {g : Grid} {s ed : Point} {st : BfsState}
    (hinv : BInv g s ed st) (hq : st.queue = [])
    (hne : (distSet g s ed).Nonempty) : False := by
  have hved : st.visited ed = false := by
    rcases h : st.visited ed with _ | _
    · rfl
    · have := hinv.ed_pending h
      rw [hq] at this
      exact absurd this (List.not_mem_nil ed)
  obtain ⟨n, l, hr, _⟩ := hne
  have : st.visited ed = true :=
    route_closed_visited
      (fun c hc n' hn' hv' =>
        hinv.closed c hc (by rw [hq]; exact List.not_mem_nil c) n' hn' hv')
      l s ed hinv.vis_s hr
  rw [this] at hved
  exact Bool.noConfusion hved

/-- Main loop lemma for `findPath`: with the invariant and sufficient
fuel, a non-empty result is a shortest route (excluding the start), and an
empty result means the goal is the start or unreachable. -/
theorem bfsLoop_spec {g : Grid} {s ed : Point} (hs : inBounds s) :
    ∀ (fuel : ℕ) (st : BfsState), BInv g s ed st → bfsMeasure st ≤ fuel →
      (bfsLoop g s ed fuel st ≠ [] →
        ed ≠ s ∧ IsRoute g s (bfsLoop g s ed fuel st) ed ∧
        s ∉ bfsLoop g s ed fuel st ∧
        IsLeast (distSet g s ed) (bfsLoop g s ed fuel st).length) ∧
      (bfsLoop g s ed fuel st = [] → (distSet g s ed).Nonempty → ed = s) := by
  intro fuel
  induction fuel with
  | zero =>
    intro st hinv hfuel
    have hq : st.queue = [] := by
      unfold bfsMeasure at hfuel
      exact List.length_eq_zero.1 (by omega)
    exact ⟨fun hne => absurd rfl hne,
      fun _ hne => (bfs_empty_no_route hinv hq hne).elim⟩
  | succ fuel ih =>
    intro st hinv hfuel
    rcases hql : st.queue with _ | ⟨current, rest⟩
    · have hval : bfsLoop g s ed (fuel + 1) st = [] := by
        rw [bfsLoop, hql]
      rw [hval]
      exact ⟨fun hne => absurd rfl hne,
        fun _ hne => (bfs_empty_no_route hinv hql hne).elim⟩
    · by_cases hced : current = ed
      · have hval : bfsLoop g s ed (fuel + 1) st
            = reconstructPath st.parents s 1000 current [] := by
          rw [bfsLoop, hql]
          exact if_pos hced
        have hcv : st.visited current = true :=
          hinv.queue_vis current (by rw [hql]; exact List.mem_cons_self _ _)
        obtain ⟨_, l, hrec, hroute, hlst, _⟩ := hinv.cell current hcv
        have hnonempty : (distSet g s current).Nonempty := ⟨l.length, hlst.1⟩
        have hlen : l.length ≤ 299 := by
          have h1 := sInf_distSet_le hs hnonempty
          rw [hlst.csInf_eq] at h1
          exact h1
        have heval : reconstructPath st.parents s 1000 current [] = l := by
          have := hrec.eval 1000 [] (by omega)
          simpa using this
        rw [hval, heval]
        subst hced
        constructor
        · intro hlne
          exact ⟨hrec.ne_start_of_ne_nil hlne, hroute, hrec.start_not_mem, hlst⟩
        · intro hlnil _
          exact (hlnil ▸ hrec).nil_inv
      · have hval : bfsLoop g s ed (fuel + 1) st
            = bfsLoop g s ed fuel
                (bfsExpand g current ⟨rest, st.visited, st.parents⟩) := by
          rw [bfsLoop, hql]
          exact if_neg hced
        obtain ⟨hinv', hmeas'⟩ := bfs_expand_preserves hinv hql hced
        rw [hval]
        exact ih _ hinv' (by omega)

theorem findPath_init_inv (g : Grid) (s ed : Point) :
    BInv g s ed ⟨[s], upd (fun _ => false) s true, fun _ => ⟨-1, -1⟩⟩ := by
  refine ⟨?_, ?_, ?_, ?_, ?_, ?_, ?_⟩
  · show upd (fun _ => false) s true s = true
    exact upd_self _ _ _
  · intro c hc
    have hcs : c = s := by
      by_contra hcs
      have hc2 : upd (fun _ => false) s true c = true := hc
      rw [upd_ne _ _ hcs] at hc2
      exact Bool.noConfusion hc2
    subst hcs
    exact ⟨Or.inl rfl, [], .base, rfl, isLeast_distSet_self g c, by simp⟩
  · intro c hc
    rw [List.mem_singleton.1 hc]
    show upd (fun _ => false) s true s = true
    exact upd_self _ _ _
  · exact List.nodup_singleton s
  · exact List.pairwise_singleton _ _
  · intro c hc hnq n hn hv
    exfalso
    refine hnq ?_
    have hcs : c = s := by
      by_contra hcs
      have hc2 : upd (fun _ => false) s true c = true := hc
      rw [upd_ne _ _ hcs] at hc2
      exact Bool.noConfusion hc2
    rw [hcs]
    exact List.mem_singleton_self s
  · intro h
    have hcs : ed = s := by
      by_contra hcs
      have hc2 : upd (fun _ => false) s true ed = true := h
      rw [upd_ne _ _ hcs] at hc2
      exact Bool.noConfusion hc2
    rw [hcs]
    exact List.mem_singleton_self s

/-- Top-level specification of `findPath`. -/
theorem findPath_spec (g : Grid) (s ed : Point) (hs : inBounds s) :
    (findPath g s ed ≠ [] →
      ed ≠ s ∧ IsRoute g s (findPath g s ed) ed ∧ s ∉ findPath g s ed ∧
      IsLeast (distSet g s ed) (findPath g s ed).length) ∧
    (findPath g s ed = [] → (distSet g s ed).Nonempty → ed = s) := by
  have hm : bfsMeasure ⟨[s], upd (fun _ => false) s true, fun _ => ⟨-1, -1⟩⟩
      ≤ 1000 := by
    unfold bfsMeasure
    have := unvisCount_le (upd (fun _ => false) s true)
    simp only [List.length_singleton]
    omega
  exact bfsLoop_spec hs 1000 _ (findPath_init_inv g s ed) hm

/-- `findPath` with coincident start and goal returns the empty path. -/
theorem findPath_self (g : Grid) (s : Point) : findPath g s s = [] := by
  rw [findPath, show (1000 : ℕ) = 999 + 1 from rfl, bfsLoop]
  show (if s = s then reconstructPath (fun _ => ⟨-1, -1⟩) s 1000 s []
    else bfsLoop g s s 999 (bfsExpand g s
      ⟨[], upd (fun _ => false) s true, fun _ => ⟨-1, -1⟩⟩)) = []
  rw [if_pos rfl, show (1000 : ℕ) = 999 + 1 from rfl, reconstructPath, if_pos rfl]
  rfl

/-! ## Independence from the start cell's occupancy -/

theorem isValid_upd_ne {g : Grid} {s p : Point} {v : Int} (h : p ≠ s) :
    isValidGridPosition (upd g s v) p.x p.y = isValidGridPosition g p.x p.y := by
  unfold isValidGridPosition
  rw [show (⟨p.x, p.y⟩ : Point) = p from rfl, upd_ne g v h]

theorem bfsMicro_upd_start {g : Grid} {s current : Point} {st : BfsState}
    (hvs : st.visited s = true) (d : Int × Int) :
    bfsMicro (upd g s 0) current st d = bfsMicro g current st d := by
  rw [bfsMicro, bfsMicro]
  by_cases hns : (⟨current.x + d.1, current.y + d.2⟩ : Point) = s
  · rw [hns, hvs]
    simp
  · rw [isValid_upd_ne hns]

theorem bfsMicro_visited_mono {g : Grid} {current p : Point} {st : BfsState}
    (h : st.visited p = true) (d : Int × Int) :
    (bfsMicro g current st d).visited p = true := by
  rw [bfsMicro]
  split
  · show upd st.visited _ true p = true
    by_cases hp : p = (⟨current.x + d.1, current.y + d.2⟩ : Point)
    · rw [hp, upd_self]
    · rw [upd_ne _ _ hp]; exact h
  · exact h

theorem foldl_bfsMicro_upd_start {g : Grid} {s current : Point} :
    ∀ (ds : List (Int × Int)) (st : BfsState), st.visited s = true →
      ds.foldl (bfsMicro (upd g s 0) current) st
        = ds.foldl (bfsMicro g current) st ∧
      (ds.foldl (bfsMicro g current) st).visited s = true := by
  intro ds
  induction ds with
  | nil => intro st hvs; exact ⟨rfl, hvs⟩
  | cons d ds ih =>
    intro st hvs
    rw [List.foldl_cons, List.foldl_cons, bfsMicro_upd_start hvs d]
    exact ih _ (bfsMicro_visited_mono hvs d)

theorem bfsLoop_upd_start {g : Grid} {s ed : Point} :
    ∀ (fuel : ℕ) (st : BfsState), st.visited s = true →
      bfsLoop (upd g s 0) s ed fuel st = bfsLoop g s ed fuel st := by
  intro fuel
  induction fuel with
  | zero => intro st _; rfl
  | succ fuel ih =>
    intro st hvs
    rcases hql : st.queue with _ | ⟨current, rest⟩
    · rw [bfsLoop, bfsLoop, hql]
    · rw [bfsLoop, bfsLoop, hql]
      show (if current = ed then _ else _) = (if current = ed then _ else _)
      by_cases hced : current = ed
      · rw [if_pos hced, if_pos hced]
      · rw [if_neg hced, if_neg hced]
        have hfold := @foldl_bfsMicro_upd_start g s current dirs
          ⟨rest, st.visited, st.parents⟩ hvs
        show bfsLoop (upd g s 0) s ed fuel
            (dirs.foldl (bfsMicro (upd g s 0) current) ⟨rest, st.visited, st.parents⟩)
          = bfsLoop g s ed fuel
            (dirs.foldl (bfsMicro g current) ⟨rest, st.visited, st.parents⟩)
        rw [hfold.1]
        exact ih _ hfold.2

/-- `findPath` never consults the start cell's occupancy. -/
theorem findPath_upd_start (g : Grid) (s ed : Point) :
    findPath (upd g s 0) s ed = findPath g s ed := by
  rw [findPath, findPath]
  refine bfsLoop_upd_start 1000 _ ?_
  show upd (fun _ => false) s true s = true
  exact upd_self _ _ _

/-! ## Heap lemmas -/

theorem getE_set_self {a : List Entry} {i : ℕ} {v : Entry} (h : i < a.length) :
    getE (a.set i v) i = v := by
  rw [getE, List.getD_eq_getElem _ _ (by simpa using h)]
  exact List.getElem_set_self _

theorem getE_set_ne {a : List Entry} {i j : ℕ} {v : Entry} (h : j ≠ i) :
    getE (a.set i v) j = getE a j := by
  rcases Nat.lt_or_ge j a.length with hj | hj
  · rw [getE, getE, List.getD_eq_getElem _ _ (by simpa using hj),
      List.getD_eq_getElem _ _ hj]
    exact List.getElem_set_of_ne (fun he => h he.symm) _ _
  · rw [getE, getE, List.getD_eq_default _ _ (by simpa using hj),
      List.getD_eq_default _ _ hj]

theorem pushUp_zero (a : List Entry) (hole : ℕ) (value : Entry) :
    pushUp 0 a hole value = a.set hole value := rfl

theorem pushUp_succ (fuel : ℕ) (a : List Entry) (hole : ℕ) (value : Entry) :
    pushUp (fuel + 1) a hole value =
      if 0 < hole then
        if heapLess (getE a ((hole - 1) / 2)) value then
          pushUp fuel (a.set hole (getE a ((hole - 1) / 2))) ((hole - 1) / 2) value
        else a.set hole value
      else a.set hole value := rfl

theorem multiset_set {a : List Entry} {i : ℕ} {v : Entry} (h : i < a.length) :
    (↑(a.set i v) : Multiset Entry) + {getE a i} = ↑a + {v} := by
  induction a generalizing i with
  | nil => simp at h
  | cons x a ih =>
    cases i with
    | zero =>
      show (↑(v :: a) : Multiset Entry) + {getE (x :: a) 0} = ↑(x :: a) + {v}
      rw [show getE (x :: a) 0 = x from rfl,
        show ((v :: a : List Entry) : Multiset Entry) = v ::ₘ ↑a from rfl,
        show ((x :: a : List Entry) : Multiset Entry) = x ::ₘ ↑a from rfl,
        ← Multiset.singleton_add, ← Multiset.singleton_add]
      abel
    | succ i =>
      have hi : i < a.length := by simpa using h
      show (↑(x :: a.set i v) : Multiset Entry) + {getE a i} = ↑(x :: a) + {v}
      rw [show ((x :: a.set i v : List Entry) : Multiset Entry) = x ::ₘ ↑(a.set i v) from rfl,
        show ((x :: a : List Entry) : Multiset Entry) = x ::ₘ ↑a from rfl,
        ← Multiset.singleton_add, ← Multiset.singleton_add, add_assoc, add_assoc,
        ih hi]

theorem pushUp_length (fuel : ℕ) :
    ∀ (a : List Entry) (hole : ℕ) (value : Entry),
      (pushUp fuel a hole value).length = a.length := by
  induction fuel with
  | zero => intro a hole v; rw [pushUp_zero, List.length_set]
  | succ fuel ih =>
    intro a hole v
    rw [pushUp_succ]
    split
    · split
      · rw [ih, List.length_set]
      · rw [List.length_set]
    · rw [List.length_set]

theorem pushUp_perm (fuel : ℕ) :
    ∀ (a : List Entry) (hole : ℕ) (value : Entry), hole < a.length →
      (↑(pushUp fuel a hole value) : Multiset Entry) + {getE a hole}
        = ↑a + {value} := by
  induction fuel with
  | zero => intro a hole v h; exact multiset_set h
  | succ fuel ih =>
    intro a hole v h
    rw [pushUp_succ]
    split
    · next hpos =>
      split
      · next hcomp =>
        have hparlt : (hole - 1) / 2 < hole := by omega
        have hlen : (hole - 1) / 2
            < (a.set hole (getE a ((hole - 1) / 2))).length := by
          simpa using lt_trans hparlt h
        have hIH := ih (a.set hole (getE a ((hole - 1) / 2))) ((hole - 1) / 2) v hlen
        rw [getE_set_ne (by omega)] at hIH
        have hset := @multiset_set a hole (getE a ((hole - 1) / 2)) h
        have key : ((↑(pushUp fuel (a.set hole (getE a ((hole - 1) / 2)))
            ((hole - 1) / 2) v) : Multiset Entry) + {getE a hole})
              + {getE a ((hole - 1) / 2)}
            = (↑a + {v}) + {getE a ((hole - 1) / 2)} := by
          calc ((↑(pushUp fuel (a.set hole (getE a ((hole - 1) / 2)))
              ((hole - 1) / 2) v) : Multiset Entry) + {getE a hole})
                + {getE a ((hole - 1) / 2)}
              = ((↑(pushUp fuel (a.set hole (getE a ((hole - 1) / 2)))
                ((hole - 1) / 2) v) : Multiset Entry) + {getE a ((hole - 1) / 2)})
                  + {getE a hole} := by abel
            _ = (↑(a.set hole (getE a ((hole - 1) / 2))) + {v}) + {getE a hole} := by
                rw [hIH]
            _ = (↑(a.set hole (getE a ((hole - 1) / 2))) + {getE a hole}) + {v} := by
                abel
            _ = (↑a + {getE a ((hole - 1) / 2)}) + {v} := by rw [hset]
            _ = (↑a + {v}) + {getE a ((hole - 1) / 2)} := by abel
        exact add_right_cancel key
      · exact multiset_set h
    · exact multiset_set h

theorem heap_root_min {a : List Entry} (h : IsHeap a) :
    ∀ i, i < a.length → (getE a 0).2 ≤ (getE a i).2 := by
  intro i
  induction i using Nat.strong_induction_on with
  | _ i ih =>
    intro hi
    rcases Nat.eq_zero_or_pos i with h0 | hpos
    · rw [h0]
    · exact le_trans (ih ((i - 1) / 2) (by omega) (by omega)) (h i hpos hi)

theorem pushUp_heap : ∀ (fuel : ℕ) (a : List Entry) (hole : ℕ) (value : Entry),
    hole < a.length → hole < fuel → HeapHole a hole → ValBelow a hole value →
    IsHeap (pushUp fuel a hole value) := by
  intro fuel
  induction fuel with
  | zero => intro a hole v _ hf _ _; omega
  | succ fuel ih =>
    rintro a hole v hlen hf ⟨h1, h2⟩ h3
    rw [pushUp_succ]
    by_cases hpos : 0 < hole
    · rw [if_pos hpos]
      by_cases hcomp : heapLess (getE a ((hole - 1) / 2)) v = true
      · rw [if_pos hcomp]
        rw [heapLess, decide_eq_true_eq] at hcomp
        refine ih (a.set hole (getE a ((hole - 1) / 2))) ((hole - 1) / 2) v
          (by rw [List.length_set]; omega) (by omega) ⟨?_, ?_⟩ ?_
        · intro j hj hjlen hjne hjpar
          rw [List.length_set] at hjlen
          by_cases hjh : j = hole
          · exact absurd (by rw [hjh]) hjpar
          · by_cases hpj : (j - 1) / 2 = hole
            · rw [show (j - 1) / 2 = hole from hpj, getE_set_self hlen,
                getE_set_ne hjh]
              exact h2 j hj hjlen hpj hpos
            · rw [getE_set_ne hpj, getE_set_ne hjh]
              exact h1 j hj hjlen hjh hpj
        · intro j hj hjlen hjpar hparpos
          rw [List.length_set] at hjlen
          have hgrand_ne : ((hole - 1) / 2 - 1) / 2 ≠ hole := by omega
          rw [getE_set_ne hgrand_ne]
          by_cases hjh : j = hole
          · rw [hjh, getE_set_self hlen]
            exact h1 ((hole - 1) / 2) hparpos (by omega) (by omega) (by omega)
          · rw [getE_set_ne hjh]
            have hj2 := h1 j hj hjlen hjh (by omega)
            rw [hjpar] at hj2
            exact le_trans
              (h1 ((hole - 1) / 2) hparpos (by omega) (by omega) (by omega)) hj2
        · intro j hj hjlen hjpar
          rw [List.length_set] at hjlen
          by_cases hjh : j = hole
          · rw [hjh, getE_set_self hlen]
            omega
          · rw [getE_set_ne hjh]
            have hj2 := h1 j hj hjlen hjh (by omega)
            rw [hjpar] at hj2
            omega
      · rw [if_neg hcomp]
        rw [heapLess, decide_eq_true_eq] at hcomp
        push_neg at hcomp
        intro j hj hjlen
        rw [List.length_set] at hjlen
        by_cases hjh : j = hole
        · subst hjh
          rw [getE_set_self hlen, getE_set_ne (show (j - 1) / 2 ≠ j by omega)]
          exact hcomp
        · by_cases hpj : (j - 1) / 2 = hole
          · rw [hpj, getE_set_self hlen, getE_set_ne hjh]
            exact h3 j hj hjlen hpj
          · rw [getE_set_ne hpj, getE_set_ne hjh]
            exact h1 j hj hjlen hjh hpj
    · rw [if_neg hpos]
      have hh0 : hole = 0 := by omega
      subst hh0
      intro j hj hjlen
      rw [List.length_set] at hjlen
      have hjne : j ≠ 0 := by omega
      rw [getE_set_ne hjne]
      by_cases hpj : (j - 1) / 2 = 0
      · rw [hpj, getE_set_self hlen]
        exact h3 j hj hjlen hpj
      · rw [getE_set_ne hpj]
        exact h1 j hj hjlen hjne hpj

theorem adjustLoop_succ (fuel : ℕ) (a : List Entry) (hole len : ℕ) :
    adjustLoop (fuel + 1) a hole len =
      if hole < (len - 1) / 2 then
        adjustLoop fuel
          (a.set hole (getE a
            (if heapLess (getE a (2 * (hole + 1))) (getE a (2 * (hole + 1) - 1))
              then 2 * (hole + 1) - 1 else 2 * (hole + 1))))
          (if heapLess (getE a (2 * (hole + 1))) (getE a (2 * (hole + 1) - 1))
            then 2 * (hole + 1) - 1 else 2 * (hole + 1)) len
      else (a, hole) := rfl

/-- Moving the hole down to a child `sc` that is no greater than any of the
hole's children preserves the heap-with-a-hole shape. -/
theorem heapHole_step {a : List Entry} {hole sc : ℕ}
    (hlen : hole < a.length) (hsc : sc < a.length)
    (hpar : (sc - 1) / 2 = hole) (hlt : hole < sc)
    (hmin : ∀ j, 0 < j → j < a.length → (j - 1) / 2 = hole →
      (getE a sc).2 ≤ (getE a j).2)
    (hh : HeapHole a hole) :
    HeapHole (a.set hole (getE a sc)) sc := by
  obtain ⟨h1, h2⟩ := hh
  constructor
  · intro j hj hjlen hjne hjpar
    rw [List.length_set] at hjlen
    by_cases hjh : j = hole
    · have hhp : 0 < hole := by omega
      rw [hjh, getE_set_self hlen, getE_set_ne (show (hole - 1) / 2 ≠ hole by omega)]
      exact h2 sc (by omega) hsc hpar hhp
    · by_cases hpj : (j - 1) / 2 = hole
      · rw [hpj, getE_set_self hlen, getE_set_ne hjh]
        exact hmin j hj hjlen hpj
      · rw [getE_set_ne hpj, getE_set_ne hjh]
        exact h1 j hj hjlen hjh hpj
  · intro j hj hjlen hjpar _
    rw [List.length_set] at hjlen
    rw [hpar, getE_set_self hlen, getE_set_ne (show j ≠ hole by omega)]
    have hj2 := h1 j hj hjlen (by omega) (by omega)
    rw [hjpar] at hj2
    exact hj2

theorem multiset_chain {r A₁ A₂ : Multiset Entry} {x y z : Entry}
    (h1 : r + {z} = A₂ + {y}) (h2 : A₂ + {x} = A₁ + {z}) :
    r + {x} = A₁ + {y} := by
  have key : (r + {x}) + {z} = (A₁ + {y}) + {z} := by
    calc (r + {x}) + {z} = (r + {z}) + {x} := by abel
    _ = (A₂ + {y}) + {x} := by rw [h1]
    _ = (A₂ + {x}) + {y} := by abel
    _ = (A₁ + {z}) + {y} := by rw [h2]
    _ = (A₁ + {y}) + {z} := by abel
  exact add_right_cancel key

/-- Phase 1 of `__adjust_heap`: descending the hole to the deepest
two-child level keeps the length, lands the hole past the internal nodes,
preserves the heap-with-a-hole shape, and only moves entries around the
hole slot. -/
theorem adjustLoop_spec : ∀ (fuel : ℕ) (a : List Entry) (hole len : ℕ),
    a.length = len → hole < len → len ≤ hole + fuel → HeapHole a hole →
    (adjustLoop fuel a hole len).1.length = len ∧
    (adjustLoop fuel a hole len).2 < len ∧
    ¬((adjustLoop fuel a hole len).2 < (len - 1) / 2) ∧
    HeapHole (adjustLoop fuel a hole len).1 (adjustLoop fuel a hole len).2 ∧
    (↑(adjustLoop fuel a hole len).1 : Multiset Entry) + {getE a hole}
      = ↑a + {getE (adjustLoop fuel a hole len).1 (adjustLoop fuel a hole len).2} := by
  intro fuel
  induction fuel with
  | zero =>
    intro a hole len hlen hhole hfuel hh
    exact absurd hfuel (by omega)
  | succ fuel ih =>
    intro a hole len hlen hhole hfuel hh
    by_cases hc : hole < (len - 1) / 2
    · rw [adjustLoop_succ, if_pos hc]
      obtain ⟨sc, hscdef, hsclo, hschi, hscpar, hmin⟩ :
          ∃ sc, (if heapLess (getE a (2 * (hole + 1))) (getE a (2 * (hole + 1) - 1))
                  then 2 * (hole + 1) - 1 else 2 * (hole + 1)) = sc ∧
            hole < sc ∧ sc < len ∧ (sc - 1) / 2 = hole ∧
            ∀ j, 0 < j → j < len → (j - 1) / 2 = hole →
              (getE a sc).2 ≤ (getE a j).2 := by
        by_cases hcmp :
            heapLess (getE a (2 * (hole + 1))) (getE a (2 * (hole + 1) - 1)) = true
        · refine ⟨2 * (hole + 1) - 1, by rw [if_pos hcmp], by omega, by omega,
            by omega, ?_⟩
          rw [heapLess, decide_eq_true_eq] at hcmp
          intro j hj hjlen hjpar
          rcases (show j = 2 * (hole + 1) - 1 ∨ j = 2 * (hole + 1) by omega)
            with h | h
          · rw [h]
          · rw [h]; omega
        · refine ⟨2 * (hole + 1), by rw [if_neg hcmp], by omega, by omega,
            by omega, ?_⟩
          rw [heapLess, decide_eq_true_eq] at hcmp
          push_neg at hcmp
          intro j hj hjlen hjpar
          rcases (show j = 2 * (hole + 1) - 1 ∨ j = 2 * (hole + 1) by omega)
            with h | h
          · rw [h]; omega
          · rw [h]
      rw [hscdef]
      have hlen' : (a.set hole (getE a sc)).length = len := by
        rw [List.length_set, hlen]
      have hstep : HeapHole (a.set hole (getE a sc)) sc :=
        heapHole_step (by omega) (by omega) hscpar hsclo
          (fun j hj hjlen hjpar => hmin j hj (by omega) hjpar) hh
      obtain ⟨ih1, ih2, ih3, ih4, ih5⟩ :=
        ih (a.set hole (getE a sc)) sc len hlen' hschi (by omega) hstep
      refine ⟨ih1, ih2, ih3, ih4, ?_⟩
      rw [getE_set_ne (show sc ≠ hole by omega)] at ih5
      exact multiset_chain ih5 (@multiset_set a hole (getE a sc) (by omega))
    · rw [adjustLoop_succ, if_neg hc]
      exact ⟨hlen, hhole, hc, hh, rfl⟩

theorem getE_take {a : List Entry} {n j : ℕ} (h : j < n) :
    getE (a.take n) j = getE a j := by
  rcases Nat.lt_or_ge j a.length with hj | hj
  · rw [getE, getE, List.getD_eq_getElem _ _ (by rw [List.length_take]; omega),
      List.getD_eq_getElem _ _ hj]
    exact List.getElem_take a
  · rw [getE, getE, List.getD_eq_default _ _ (by rw [List.length_take]; omega),
      List.getD_eq_default _ _ (by omega)]

theorem isHeap_take {a : List Entry} (h : IsHeap a) (n : ℕ) :
    IsHeap (a.take n) := by
  intro i hi hilen
  rw [List.length_take] at hilen
  rw [getE_take (by omega), getE_take (by omega)]
  exact h i hi (by omega)

theorem getE_append_left {a b : List Entry} {i : ℕ} (h : i < a.length) :
    getE (a ++ b) i = getE a i := by
  rw [getE, getE, List.getD_eq_getElem _ _ (by rw [List.length_append]; omega),
    List.getD_eq_getElem _ _ h]
  exact List.getElem_append_left _

theorem getE_append_last (a : List Entry) (v : Entry) :
    getE (a ++ [v]) a.length = v := by
  rw [getE, List.getD_eq_getElem _ _ (by simp)]
  simp

theorem multiset_take_last {a : List Entry} (h : a.length ≠ 0) :
    (↑a : Multiset Entry) = ↑(a.take (a.length - 1)) + {getE a (a.length - 1)} := by
  have hlt : a.length - 1 < a.length := by omega
  have hdec : a.take (a.length - 1) ++ [a.get ⟨a.length - 1, hlt⟩] = a := by
    have h2 := List.take_concat_get' a (a.length - 1) hlt
    rw [show a.length - 1 + 1 = a.length by omega, List.take_length] at h2
    exact h2
  have hg : getE a (a.length - 1) = a.get ⟨a.length - 1, hlt⟩ := by
    rw [getE, List.getD_eq_getElem _ _ hlt]
    rfl
  rw [hg]
  calc (↑a : Multiset Entry)
      = ↑(a.take (a.length - 1) ++ [a.get ⟨a.length - 1, hlt⟩]) := by rw [hdec]
    _ = ↑(a.take (a.length - 1)) + ↑([a.get ⟨a.length - 1, hlt⟩] : List Entry) :=
        rfl
    _ = ↑(a.take (a.length - 1)) + {a.get ⟨a.length - 1, hlt⟩} := by
        rw [Multiset.coe_singleton]

/-- `__adjust_heap` on a heap with the root removed: the result is a heap
holding `value` in place of the root. -/
theorem heapAdjust_spec (a : List Entry) (value : Entry) (hne : a ≠ [])
    (h : IsHeap a) :
    IsHeap (heapAdjust a a.length value) ∧
    (↑(heapAdjust a a.length value) : Multiset Entry) + {getE a 0}
      = ↑a + {value} := by
  have hlen0 : 0 < a.length := List.length_pos.mpr hne
  have hh0 : HeapHole a 0 :=
    ⟨fun j hj hjlen _ _ => h j hj hjlen, fun j _ _ _ hf => absurd hf (by omega)⟩
  obtain ⟨s1len, s1lt, s1ge, s1hh, s1ms⟩ :=
    adjustLoop_spec a.length a 0 a.length rfl hlen0 (by omega) hh0
  simp only [heapAdjust]
  by_cases hp2 : (a.length % 2 == 0 &&
      (adjustLoop a.length a 0 a.length).2 == (a.length - 2) / 2) = true
  · rw [if_pos hp2]
    rw [Bool.and_eq_true, beq_iff_eq, beq_iff_eq] at hp2
    obtain ⟨heven, hmid⟩ := hp2
    have hc : 2 * ((adjustLoop a.length a 0 a.length).2 + 1) - 1
        = a.length - 1 := by omega
    have hstep : HeapHole
        ((adjustLoop a.length a 0 a.length).1.set
          (adjustLoop a.length a 0 a.length).2
          (getE (adjustLoop a.length a 0 a.length).1
            (2 * ((adjustLoop a.length a 0 a.length).2 + 1) - 1)))
        (2 * ((adjustLoop a.length a 0 a.length).2 + 1) - 1) := by
      refine heapHole_step (by omega) (by omega) (by omega) (by omega) ?_ s1hh
      intro j hj hjlen hjpar
      rw [s1len] at hjlen
      rw [show j = 2 * ((adjustLoop a.length a 0 a.length).2 + 1) - 1 by omega]
    have hvb : ValBelow
        ((adjustLoop a.length a 0 a.length).1.set
          (adjustLoop a.length a 0 a.length).2
          (getE (adjustLoop a.length a 0 a.length).1
            (2 * ((adjustLoop a.length a 0 a.length).2 + 1) - 1)))
        (2 * ((adjustLoop a.length a 0 a.length).2 + 1) - 1) value := by
      intro j hj hjlen hjpar
      rw [List.length_set, s1len] at hjlen
      exact absurd hjpar (by omega)
    constructor
    · exact pushUp_heap _ _ _ _ (by rw [List.length_set]; omega) (by omega)
        hstep hvb
    · have hperm := pushUp_perm
        (2 * ((adjustLoop a.length a 0 a.length).2 + 1) - 1 + 1)
        ((adjustLoop a.length a 0 a.length).1.set
          (adjustLoop a.length a 0 a.length).2
          (getE (adjustLoop a.length a 0 a.length).1
            (2 * ((adjustLoop a.length a 0 a.length).2 + 1) - 1)))
        (2 * ((adjustLoop a.length a 0 a.length).2 + 1) - 1) value
        (by rw [List.length_set]; omega)
      rw [getE_set_ne (by omega)] at hperm
      exact multiset_chain
        (multiset_chain hperm
          (@multiset_set (adjustLoop a.length a 0 a.length).1
            (adjustLoop a.length a 0 a.length).2
            (getE (adjustLoop a.length a 0 a.length).1
              (2 * ((adjustLoop a.length a 0 a.length).2 + 1) - 1))
            (by omega)))
        s1ms
  · rw [if_neg hp2]
    rw [Bool.and_eq_true, beq_iff_eq, beq_iff_eq] at hp2
    push_neg at hp2
    have hvb : ValBelow (adjustLoop a.length a 0 a.length).1
        (adjustLoop a.length a 0 a.length).2 value := by
      intro j hj hjlen hjpar
      rw [s1len] at hjlen
      by_cases heven : a.length % 2 = 0
      · have hne2 := hp2 heven
        exact absurd hjpar (by omega)
      · exact absurd hjpar (by omega)
    constructor
    · exact pushUp_heap _ _ _ _ (by omega) (by omega) s1hh hvb
    · have hperm := pushUp_perm ((adjustLoop a.length a 0 a.length).2 + 1)
        (adjustLoop a.length a 0 a.length).1
        (adjustLoop a.length a 0 a.length).2 value (by omega)
      exact multiset_chain hperm s1ms

theorem isHeap_nil : IsHeap [] := by
  intro i hi hilen
  simp at hilen

/-- `priority_queue::pop` keeps the heap shape. -/
theorem heapPop_isHeap (a : List Entry) (h : IsHeap a) : IsHeap (heapPop a) := by
  rw [heapPop]
  by_cases hle : a.length ≤ 1
  · rw [if_pos hle]
    exact isHeap_nil
  · rw [if_neg hle]
    have ht : (a.take (a.length - 1)).length = a.length - 1 := by
      rw [List.length_take]; omega
    have hspec := heapAdjust_spec (a.take (a.length - 1))
      (getE a (a.length - 1))
      (by intro hnil; rw [hnil] at ht; simp at ht; omega)
      (isHeap_take h _)
    rw [ht] at hspec
    exact hspec.1

/-- `priority_queue::pop` removes exactly the top entry from the multiset
of held entries. -/
theorem heapPop_perm (a : List Entry) (h : IsHeap a) (hne : a ≠ []) :
    (↑a : Multiset Entry) = ↑(heapPop a) + {getE a 0} := by
  rw [heapPop]
  by_cases hle : a.length ≤ 1
  · rw [if_pos hle]
    have h1 : a.length = 1 := by
      rcases Nat.eq_zero_or_pos a.length with h0 | h0
      · exact absurd (List.length_eq_zero.mp h0) hne
      · omega
    obtain ⟨x, hx⟩ := List.length_eq_one.mp h1
    subst hx
    simp [getE]
  · rw [if_neg hle]
    have ht : (a.take (a.length - 1)).length = a.length - 1 := by
      rw [List.length_take]; omega
    have hspec := heapAdjust_spec (a.take (a.length - 1))
      (getE a (a.length - 1))
      (by intro hnil; rw [hnil] at ht; simp at ht; omega)
      (isHeap_take h _)
    rw [ht] at hspec
    have h2 := hspec.2
    rw [getE_take (show (0 : ℕ) < a.length - 1 by omega)] at h2
    rw [multiset_take_last (show a.length ≠ 0 by omega)]
    exact h2.symm

/-- `priority_queue::push` keeps the heap shape. -/
theorem heapPush_isHeap (a : List Entry) (value : Entry) (h : IsHeap a) :
    IsHeap (heapPush a value) := by
  rw [heapPush]
  refine pushUp_heap _ _ _ _ (by rw [List.length_append]; simp) (by omega)
    ⟨?_, ?_⟩ ?_
  · intro j hj hjlen hjne hjpar
    rw [List.length_append, List.length_singleton] at hjlen
    rw [getE_append_left (show j < a.length by omega),
      getE_append_left (show (j - 1) / 2 < a.length by omega)]
    exact h j hj (by omega)
  · intro j hj hjlen hjpar hpos
    rw [List.length_append, List.length_singleton] at hjlen
    exact absurd hjpar (by omega)
  · intro j hj hjlen hjpar
    rw [List.length_append, List.length_singleton] at hjlen
    exact absurd hjpar (by omega)

/-- `priority_queue::push` adds exactly the new entry to the multiset of
held entries. -/
theorem heapPush_perm (a : List Entry) (value : Entry) :
    (↑(heapPush a value) : Multiset Entry) = ↑a + {value} := by
  rw [heapPush]
  have hperm := pushUp_perm (a.length + 1) (a ++ [value]) a.length value
    (by rw [List.length_append]; simp)
  rw [getE_append_last] at hperm
  have hco : ((a ++ [value] : List Entry) : Multiset Entry) = ↑a + {value} := by
    rw [show ((a ++ [value] : List Entry) : Multiset Entry)
        = ↑a + ↑([value] : List Entry) from rfl, Multiset.coe_singleton]
  rw [hco] at hperm
  exact add_right_cancel hperm

theorem getE_of_mem {l : List Entry} {e : Entry} (h : e ∈ l) :
    ∃ i, i < l.length ∧ getE l i = e := by
  obtain ⟨i, hi, hie⟩ := List.mem_iff_getElem.mp h
  exact ⟨i, hi, by rw [getE, List.getD_eq_getElem _ _ hi]; exact hie⟩

/-- The root of a binary min-heap on f-costs has minimal f-cost. -/
theorem isHeap_top_min (l : List Entry) (h : IsHeap l) :
    ∀ e ∈ l, (getE l 0).2 ≤ e.2 := by
  intro e he
  obtain ⟨i, hi, hie⟩ := getE_of_mem he
  rw [← hie]
  exact heap_root_min h i hi

/-! ## The FIFO-stable sorted frontier (spec's reference A*) -/

theorem fifoPush_perm (l : List Entry) (x : Entry) :
    (↑(fifoPush l x) : Multiset Entry) = ↑l + {x} := by
  induction l with
  | nil =>
    rw [fifoPush, show (([x] : List Entry) : Multiset Entry) = x ::ₘ ↑([] : List Entry)
      from rfl, ← Multiset.singleton_add]
    abel
  | cons e rest ih =>
    rw [fifoPush]
    by_cases hc : e.2 ≤ x.2
    · rw [if_pos hc,
        show ((e :: fifoPush rest x : List Entry) : Multiset Entry)
          = e ::ₘ ↑(fifoPush rest x) from rfl, ih,
        show ((e :: rest : List Entry) : Multiset Entry) = e ::ₘ ↑rest from rfl,
        ← Multiset.singleton_add, ← Multiset.singleton_add]
      abel
    · rw [if_neg hc,
        show ((x :: e :: rest : List Entry) : Multiset Entry)
          = x ::ₘ ↑(e :: rest) from rfl, ← Multiset.singleton_add]
      abel

theorem fifoPush_mem {l : List Entry} {x b : Entry} (h : b ∈ fifoPush l x) :
    b ∈ l ∨ b = x := by
  have hm : b ∈ (↑(fifoPush l x) : Multiset Entry) := by
    rw [Multiset.mem_coe]; exact h
  rw [fifoPush_perm] at hm
  rw [Multiset.mem_add, Multiset.mem_coe, Multiset.mem_singleton] at hm
  exact hm

theorem fifoPush_pairwise (l : List Entry) (x : Entry)
    (h : List.Pairwise (fun e1 e2 => e1.2 ≤ e2.2) l) :
    List.Pairwise (fun e1 e2 => e1.2 ≤ e2.2) (fifoPush l x) := by
  induction l with
  | nil => simp [fifoPush]
  | cons e rest ih =>
    rw [List.pairwise_cons] at h
    obtain ⟨he, hrest⟩ := h
    rw [fifoPush]
    by_cases hc : e.2 ≤ x.2
    · rw [if_pos hc, List.pairwise_cons]
      refine ⟨?_, ih hrest⟩
      intro b hb
      rcases fifoPush_mem hb with hb' | rfl
      · exact he b hb'
      · exact hc
    · rw [if_neg hc, List.pairwise_cons]
      refine ⟨?_, List.pairwise_cons.mpr ⟨he, hrest⟩⟩
      intro b hb
      rcases List.mem_cons.mp hb with rfl | hb'
      · omega
      · have := he b hb'
        omega

theorem fifo_tail_pairwise (l : List Entry)
    (h : List.Pairwise (fun e1 e2 => e1.2 ≤ e2.2) l) :
    List.Pairwise (fun e1 e2 => e1.2 ≤ e2.2) l.tail := by
  cases l with
  | nil => exact h
  | cons a rest => exact (List.pairwise_cons.mp h).2

theorem fifo_pop_perm (l : List Entry) (hne : l ≠ []) :
    (↑l : Multiset Entry) = ↑l.tail + {getE l 0} := by
  cases l with
  | nil => exact absurd rfl hne
  | cons a rest =>
    rw [show ((a :: rest : List Entry) : Multiset Entry) = a ::ₘ ↑rest from rfl,
      ← Multiset.singleton_add,
      show getE (a :: rest) 0 = a from rfl,
      show (a :: rest).tail = rest from rfl]
    abel

theorem fifo_top_min (l : List Entry)
    (h : List.Pairwise (fun e1 e2 => e1.2 ≤ e2.2) l) :
    ∀ e ∈ l, (getE l 0).2 ≤ e.2 := by
  cases l with
  | nil => intro e he; simp at he
  | cons a rest =>
    intro e he
    rcases List.mem_cons.mp he with rfl | hmem
    · exact le_refl _
    · exact (List.pairwise_cons.mp h).1 e hmem

/-! ## A* lemmas -/

theorem astarMicro_eq (g : Grid) (ed current : Point)
    (pushF : List Entry → Entry → List Entry) (st : AStarState)
    (d : Int × Int) :
    astarMicro g ed current pushF st d =
      if isValidGridPosition g (current.x + d.1) (current.y + d.2)
          && !st.visited ⟨current.x + d.1, current.y + d.2⟩ then
        if st.gCost current + 1 < st.gCost ⟨current.x + d.1, current.y + d.2⟩ then
          ⟨pushF st.openList (⟨current.x + d.1, current.y + d.2⟩,
              st.gCost current + 1
                + (|current.x + d.1 - ed.x| + |current.y + d.2 - ed.y|)),
            st.visited, upd st.parents ⟨current.x + d.1, current.y + d.2⟩ current,
            upd st.gCost ⟨current.x + d.1, current.y + d.2⟩ (st.gCost current + 1)⟩
        else st
      else st := rfl

theorem astarExpand_eq_foldl (g : Grid) (ed current : Point)
    (pushF : List Entry → Entry → List Entry) (st : AStarState) :
    astarExpand g ed current pushF st
      = dirs.foldl (astarMicro g ed current pushF) st := rfl

theorem manhattan_eq_abs (n ed : Point) :
    manhattan n ed = |n.x - ed.x| + |n.y - ed.y| := rfl

theorem ReconRel.self_nil {par : Point → Point} {start : Point}
    {l : List Point} (h : ReconRel par start start l) : l = [] := by
  cases h with
  | base => rfl
  | step hne _ => exact absurd rfl hne

theorem IsRoute.concat_inv {g : Grid} {s t : Point} {l : List Point}
    (h : IsRoute g s l t) (hne : l ≠ []) :
    ∃ l' v, l = l' ++ [t] ∧ IsRoute g s l' v ∧ t ∈ neighbors v ∧
      validCell g t := by
  have hdec := List.dropLast_append_getLast hne
  rw [← hdec] at h
  obtain ⟨m, h1, h2⟩ := isRoute_append_iff.1 h
  obtain ⟨hn, hv, hlast⟩ := isRoute_cons.1 h2
  rw [isRoute_nil] at hlast
  subst hlast
  exact ⟨l.dropLast, m, hdec.symm, h1, hn, hv⟩

/-- A route is a 4-connected chain (consecutive cells, and the first cell
relative to the start, differ by one step). -/
theorem IsRoute.chain {g : Grid} :
    ∀ {l : List Point} {s t : Point}, IsRoute g s l t →
      List.Chain (fun a b => b ∈ neighbors a) s l := by
  intro l
  induction l with
  | nil => intro s t _; exact List.Chain.nil
  | cons c l ih =>
    rintro s t ⟨hn, _, hr⟩
    exact List.Chain.cons hn (ih hr)

theorem getE_mem {l : List Entry} (h : l ≠ []) : getE l 0 ∈ l := by
  have hpos : 0 < l.length := List.length_pos.2 h
  rw [getE, List.getD_eq_getElem _ _ hpos]
  exact List.getElem_mem hpos

theorem mem_of_multiset_pop {pop : List Entry} {l : List Entry} {top e : Entry}
    (hperm : (↑l : Multiset Entry) = ↑pop + {top}) (he : e ∈ l) :
    e ∈ pop ∨ e = top := by
  have hm : e ∈ (↑l : Multiset Entry) := by rw [Multiset.mem_coe]; exact he
  rw [hperm, Multiset.mem_add, Multiset.mem_coe, Multiset.mem_singleton] at hm
  exact hm

theorem mem_of_multiset_pop_rev {pop : List Entry} {l : List Entry}
    {top e : Entry} (hperm : (↑l : Multiset Entry) = ↑pop + {top})
    (he : e ∈ pop) : e ∈ l := by
  rw [← Multiset.mem_coe, hperm, Multiset.mem_add, Multiset.mem_coe]
  exact Or.inl he

theorem mem_of_multiset_push {push : List Entry} {l : List Entry} {x e : Entry}
    (hperm : (↑push : Multiset Entry) = ↑l + {x}) (he : e ∈ l) : e ∈ push := by
  rw [← Multiset.mem_coe, hperm, Multiset.mem_add, Multiset.mem_coe]
  exact Or.inl he

theorem self_mem_of_multiset_push {push : List Entry} {l : List Entry}
    {x : Entry} (hperm : (↑push : Multiset Entry) = ↑l + {x}) : x ∈ push := by
  rw [← Multiset.mem_coe, hperm, Multiset.mem_add, Multiset.mem_singleton]
  exact Or.inr rfl

theorem mem_of_multiset_push_rev {push : List Entry} {l : List Entry}
    {x e : Entry} (hperm : (↑push : Multiset Entry) = ↑l + {x})
    (he : e ∈ push) : e ∈ l ∨ e = x := by
  have hm : e ∈ (↑push : Multiset Entry) := by rw [Multiset.mem_coe]; exact he
  rw [hperm, Multiset.mem_add, Multiset.mem_coe, Multiset.mem_singleton] at hm
  exact hm

theorem length_of_multiset_pop {pop : List Entry} {l : List Entry} {top : Entry}
    (hperm : (↑l : Multiset Entry) = ↑pop + {top}) :
    l.length = pop.length + 1 := by
  have := congrArg Multiset.card hperm
  simpa using this

theorem length_of_multiset_push {push : List Entry} {l : List Entry} {x : Entry}
    (hperm : (↑push : Multiset Entry) = ↑l + {x}) :
    push.length = l.length + 1 := by
  have := congrArg Multiset.card hperm
  simpa using this

theorem potSum_upd {gc : Point → Int} {p : Point} {v : Int}
    (hp : p ∈ boundedPoints) :
    potSum (upd gc p v) + pot (gc p) = potSum gc + pot v := by
  unfold potSum
  rw [← Finset.sum_erase_add _ _ hp, ← Finset.sum_erase_add _ _ hp]
  have hcong : ∀ q ∈ boundedPoints.erase p, pot (upd gc p v q) = pot (gc q) := by
    intro q hq
    rw [upd_ne _ _ (Finset.ne_of_mem_erase hq)]
  rw [Finset.sum_congr rfl hcong, upd_self]
  ring

theorem pot_le (x : Int) (h : 0 ≤ x → x ≤ 300) : pot x ≤ 301 := by
  unfold pot
  split
  · exact le_refl _
  · rcases le_or_lt x 0 with hx | hx
    · omega
    · have := h (le_of_lt hx); omega

/-- If an (unvisited) cell is reachable by a route, some frontier entry
has f-cost at most the route length plus the cell's heuristic (the A*
"frontier intersects every route" property). -/
theorem astar_route_pending {g : Grid} {s ed : Point} {st : AStarState}
    (inv : AInv g s ed st) :
    ∀ (n : ℕ) (l : List Point) (c : Point), l.length = n → IsRoute g s l c →
      st.visited c = false →
      ∃ u f, (u, f) ∈ st.openList ∧
        f ≤ (l.length : Int) + manhattan c ed := by
  intro n
  induction n using Nat.strong_induction_on with
  | _ n ih =>
    intro l c hlen hr hc
    by_cases hvs : st.visited s = true
    · have hlne : l ≠ [] := by
        intro h0
        subst h0
        rw [isRoute_nil] at hr
        rw [← hr, hvs] at hc
        exact Bool.noConfusion hc
      obtain ⟨l', v, hdec, hr', hnb, hvc⟩ := hr.concat_inv hlne
      have hlen2 : l.length = l'.length + 1 := by rw [hdec]; simp
      by_cases hvv : st.visited v = true
      · rcases inv.closed v hvv c hnb hvc with hvis | hgc
        · rw [hvis] at hc
          exact Bool.noConfusion hc
        · obtain ⟨hvIM, hvleast⟩ := inv.vis_g v hvv
          obtain ⟨hv0, hv300, _⟩ := inv.gval v hvIM
          have hcIM : st.gCost c ≠ INT_MAX := by
            intro hEq
            rw [hEq] at hgc
            have hIM : INT_MAX = 2147483647 := rfl
            rw [hIM] at hgc
            omega
          obtain ⟨f, hf, hfle⟩ := inv.pending c hc hcIM
          refine ⟨c, f, hf, ?_⟩
          have hvle : (st.gCost v).toNat ≤ l'.length := hvleast.2 ⟨l', hr', rfl⟩
          omega
      · obtain ⟨u, f, hf, hfle⟩ := ih l'.length (by omega) l' v rfl hr'
          (by rw [Bool.not_eq_true] at hvv; exact hvv)
        refine ⟨u, f, hf, ?_⟩
        have hman := @manhattan_le_succ_of_mem_neighbors v c ed hnb
        omega
    · have hsIM : st.gCost s ≠ INT_MAX := by
        rw [inv.gs, INT_MAX]
        omega
      obtain ⟨f, hf, hfle⟩ := inv.pending s
        (by rw [Bool.not_eq_true] at hvs; exact hvs) hsIM
      refine ⟨s, f, hf, ?_⟩
      have hman := @manhattan_le_route g ed l s c hr
      rw [inv.gs] at hfle
      omega

/-- When the frontier's minimal-f entry holds an unvisited cell, that
cell's g-cost is its exact graph distance (correctness of the A* pop with
a consistent heuristic). -/
theorem astar_pop_correct {g : Grid} {s ed : Point} {st : AStarState}
    {ok : List Entry → Prop}
    (htop : ∀ l, ok l → ∀ e ∈ l, (getE l 0).2 ≤ e.2)
    (inv : AInv g s ed st) (hok : ok st.openList)
    (hne : st.openList ≠ [])
    (hunvis : st.visited (getE st.openList 0).1 = false) :
    st.gCost (getE st.openList 0).1 ≠ INT_MAX ∧
    IsLeast (distSet g s (getE st.openList 0).1)
      (st.gCost (getE st.openList 0).1).toNat := by
  have hmem : getE st.openList 0 ∈ st.openList := getE_mem hne
  rcases inv.entries _ hmem with ⟨h1, _⟩ | ⟨_, hIM, hle⟩
  · rw [h1, inv.gs]
    refine ⟨by rw [show INT_MAX = 2147483647 from rfl]; omega, ?_⟩
    simpa using isLeast_distSet_self g s
  · refine ⟨hIM, ?_⟩
    obtain ⟨h0, h300, hmemd⟩ := inv.gval _ hIM
    have hned : (distSet g s (getE st.openList 0).1).Nonempty := ⟨_, hmemd⟩
    obtain ⟨l₀, hr₀, hl₀⟩ := Nat.sInf_mem hned
    obtain ⟨u, f, hf, hfle⟩ :=
      astar_route_pending inv l₀.length l₀ _ rfl hr₀ hunvis
    have htopmin := htop _ hok _ hf
    have hsle : (st.gCost (getE st.openList 0).1).toNat
        ≤ sInf (distSet g s (getE st.openList 0).1) := by
      rw [← hl₀]
      omega
    exact ⟨hmemd, fun b hb => le_trans hsle (Nat.sInf_le hb)⟩

/-- Popping the top entry and marking its cell visited yields the
mid-expansion invariant with all four directions pending. -/
theorem astarMid_init {g : Grid} {s ed : Point} {st : AStarState}
    {popF : List Entry → List Entry} {ok : List Entry → Prop}
    (hpop_perm : ∀ l, ok l → l ≠ [] →
      (↑l : Multiset Entry) = ↑(popF l) + {getE l 0})
    (htop : ∀ l, ok l → ∀ e ∈ l, (getE l 0).2 ≤ e.2)
    (inv : AInv g s ed st) (hok : ok st.openList) (hne : st.openList ≠ [])
    (hced : (getE st.openList 0).1 ≠ ed) :
    AMid g s ed (getE st.openList 0).1 (popF st.openList) st.gCost dirs
      ⟨popF st.openList, upd st.visited (getE st.openList 0).1 true,
        st.parents, st.gCost⟩ := by
  have hperm := hpop_perm _ hok hne
  have hvg : st.gCost (getE st.openList 0).1 ≠ INT_MAX ∧
      IsLeast (distSet g s (getE st.openList 0).1)
        (st.gCost (getE st.openList 0).1).toNat := by
    by_cases hvis : st.visited (getE st.openList 0).1 = true
    · exact inv.vis_g _ hvis
    · exact astar_pop_correct htop inv hok hne
        (by rw [Bool.not_eq_true] at hvis; exact hvis)
  have hcurval : (getE st.openList 0).1 = s ∨
      validCell g (getE st.openList 0).1 := by
    rcases inv.entries _ (getE_mem hne) with ⟨h1, _⟩ | ⟨hval, _, _⟩
    · exact Or.inl h1
    · exact Or.inr hval
  refine ⟨?_, inv.gs, inv.gval, ?_, ?_, upd_self _ _ _, ?_, ?_, ?_, ?_, ?_,
    le_refl _⟩
  · show upd st.visited (getE st.openList 0).1 true ed = false
    rw [upd_ne _ _ (fun h => hced h.symm)]
    exact inv.ed_unvis
  · intro u hu
    by_cases huc : u = (getE st.openList 0).1
    · rw [huc]
      exact hvg
    · have hu' : upd st.visited (getE st.openList 0).1 true u = true := hu
      rw [upd_ne _ _ huc] at hu'
      exact inv.vis_g u hu'
  · intro u hu
    by_cases huc : u = (getE st.openList 0).1
    · rw [huc]
      exact hcurval
    · have hu' : upd st.visited (getE st.openList 0).1 true u = true := hu
      rw [upd_ne _ _ huc] at hu'
      exact inv.vis_valid u hu'
  · intro u hIM
    obtain ⟨l, h1, h2, h3, h4⟩ := inv.chain u hIM
    refine ⟨l, h1, h2, h3, ?_⟩
    intro x hx hxu
    show upd st.visited (getE st.openList 0).1 true x = true
    by_cases hxc : x = (getE st.openList 0).1
    · rw [hxc, upd_self]
    · rw [upd_ne _ _ hxc]
      exact h4 x hx hxu
  · intro v hv hvc n hn hvn
    have hv' : upd st.visited (getE st.openList 0).1 true v = true := hv
    rw [upd_ne _ _ hvc] at hv'
    rcases inv.closed v hv' n hn hvn with h | h
    · left
      show upd st.visited (getE st.openList 0).1 true n = true
      by_cases hnc : n = (getE st.openList 0).1
      · rw [hnc, upd_self]
      · rw [upd_ne _ _ hnc]
        exact h
    · exact Or.inr h
  · intro d hd hdn
    exact absurd hd hdn
  · intro u hu hIM
    have huc : u ≠ (getE st.openList 0).1 := by
      intro h
      have : upd st.visited (getE st.openList 0).1 true u = false := hu
      rw [h, upd_self] at this
      exact Bool.noConfusion this
    have hu' : upd st.visited (getE st.openList 0).1 true u = false := hu
    rw [upd_ne _ _ huc] at hu'
    obtain ⟨f, hf, hfle⟩ := inv.pending u hu' hIM
    rcases mem_of_multiset_pop hperm hf with h | h
    · exact ⟨f, h, hfle⟩
    · exact absurd (congrArg Prod.fst h) huc
  · intro e he
    exact inv.entries e (mem_of_multiset_pop_rev hperm he)

/-- Relaxing a valid unvisited neighbour `n` of `current` (strictly
improving its g-cost, repointing its parent, and pushing a fresh entry)
preserves the mid-expansion invariant. -/
theorem astar_relax {g : Grid} {s ed current n : Point} {rest : List Entry}
    {g0 : Point → Int} {pushF : List Entry → Entry → List Entry}
    (hpush_perm : ∀ (l : List Entry) (x : Entry),
      (↑(pushF l x) : Multiset Entry) = ↑l + {x})
    (hs : inBounds s) {d : Int × Int} (hd : d ∈ dirs)
    (hn_eq : n = ⟨current.x + d.1, current.y + d.2⟩)
    {pend : List (Int × Int)} {m : AStarState}
    (hmid : AMid g s ed current rest g0 (d :: pend) m)
    (hval : validCell g n) (hnvis : m.visited n = false)
    (hlt : m.gCost current + 1 < m.gCost n) :
    AMid g s ed current rest g0 pend
      ⟨pushF m.openList (n, m.gCost current + 1 + manhattan n ed), m.visited,
        upd m.parents n current, upd m.gCost n (m.gCost current + 1)⟩ := by
  have hIMnum : INT_MAX = 2147483647 := rfl
  have hnn : n ∈ neighbors current := by
    rw [hn_eq]; exact mem_neighbors_of_dir hd
  have hcv := hmid.vis_c
  obtain ⟨hcIM, hcleast⟩ := hmid.vis_g current hcv
  obtain ⟨hc0, hc300, hcmem⟩ := hmid.gval current hcIM
  have hc299 : m.gCost current ≤ 299 := by
    have hned : (distSet g s current).Nonempty := ⟨_, hcleast.1⟩
    have h1 := sInf_distSet_le hs hned
    have h2 : (m.gCost current).toNat ≤ sInf (distSet g s current) :=
      hcleast.2 (Nat.sInf_mem hned)
    omega
  have hns : n ≠ s := by
    intro h
    rw [h, hmid.gs] at hlt
    omega
  have hncur : n ≠ current := by
    intro h
    rw [h, hcv] at hnvis
    exact Bool.noConfusion hnvis
  obtain ⟨lc, hrec, hroute, hlen, hvisl⟩ := hmid.chain current hcIM
  have hvisl' : ∀ x ∈ lc, m.visited x = true := by
    intro x hx
    by_cases hxc : x = current
    · rw [hxc]; exact hcv
    · exact hvisl x hx hxc
  have hnotmem : n ∉ lc := by
    intro hmem
    rw [hvisl' n hmem] at hnvis
    exact Bool.noConfusion hnvis
  have htoNat : (m.gCost current + 1).toNat = (m.gCost current).toNat + 1 := by
    omega
  have hnmem_d : (m.gCost current + 1).toNat ∈ distSet g s n := by
    rw [htoNat]
    exact distSet_step hcmem hnn hval
  have hbp : n ∈ boundedPoints :=
    mem_boundedPoints.2 ⟨hval.1, hval.2.1, hval.2.2.1, hval.2.2.2.1⟩
  have hperm := hpush_perm m.openList (n, m.gCost current + 1 + manhattan n ed)
  have h2 : upd m.gCost n (m.gCost current + 1) s = 0 := by
    rw [upd_ne _ _ (Ne.symm hns)]
    exact hmid.gs
  have h3 : ∀ u, upd m.gCost n (m.gCost current + 1) u ≠ INT_MAX →
      0 ≤ upd m.gCost n (m.gCost current + 1) u ∧
      upd m.gCost n (m.gCost current + 1) u ≤ 300 ∧
      (upd m.gCost n (m.gCost current + 1) u).toNat ∈ distSet g s u := by
    intro u hIMu
    by_cases huc : u = n
    · rw [huc, upd_self]
      exact ⟨by omega, by omega, hnmem_d⟩
    · rw [upd_ne _ _ huc] at hIMu ⊢
      exact hmid.gval u hIMu
  have h4 : ∀ u, m.visited u = true →
      upd m.gCost n (m.gCost current + 1) u ≠ INT_MAX ∧
      IsLeast (distSet g s u) (upd m.gCost n (m.gCost current + 1) u).toNat := by
    intro u hu
    have hun : u ≠ n := by
      intro h
      rw [h, hnvis] at hu
      exact Bool.noConfusion hu
    rw [upd_ne _ _ hun]
    exact hmid.vis_g u hu
  have h7 : ∀ u, upd m.gCost n (m.gCost current + 1) u ≠ INT_MAX →
      ∃ l, ReconRel (upd m.parents n current) s u l ∧ IsRoute g s l u ∧
        (l.length : Int) ≤ upd m.gCost n (m.gCost current + 1) u ∧
        ∀ x ∈ l, x ≠ u → m.visited x = true := by
    intro u hIMu
    by_cases huc : u = n
    · rw [huc]
      refine ⟨lc ++ [n], ?_, hroute.snoc hnn hval, ?_, ?_⟩
      · refine ReconRel.step hns ?_
        rw [upd_self]
        exact hrec.update hnotmem
      · rw [upd_self]
        simp only [List.length_append, List.length_singleton]
        push_cast
        omega
      · intro x hx hxu
        rcases List.mem_append.1 hx with h | h
        · exact hvisl' x h
        · rw [List.mem_singleton.1 h] at hxu
          exact absurd rfl hxu
    · rw [upd_ne _ _ huc] at hIMu ⊢
      obtain ⟨lu, hh1, hh2, hh3, hh4⟩ := hmid.chain u hIMu
      have hnlu : n ∉ lu := by
        intro hmem
        rw [hh4 n hmem (fun h => huc h.symm)] at hnvis
        exact Bool.noConfusion hnvis
      exact ⟨lu, hh1.update hnlu, hh2, hh3, hh4⟩
  have h8 : ∀ v, m.visited v = true → v ≠ current →
      ∀ nn ∈ neighbors v, validCell g nn →
        m.visited nn = true ∨ upd m.gCost n (m.gCost current + 1) nn
          ≤ upd m.gCost n (m.gCost current + 1) v + 1 := by
    intro v hv hvcur nn hnn2 hvn2
    have hvn : v ≠ n := by
      intro h
      rw [h, hnvis] at hv
      exact Bool.noConfusion hv
    rcases hmid.closed_ne v hv hvcur nn hnn2 hvn2 with h | h
    · exact Or.inl h
    · right
      rw [upd_ne _ _ hvn]
      by_cases hnnn : nn = n
      · rw [hnnn, upd_self]
        rw [hnnn] at h
        omega
      · rw [upd_ne _ _ hnnn]
        exact h
  have h9 : ∀ dd ∈ dirs, dd ∉ pend →
      validCell g ⟨current.x + dd.1, current.y + dd.2⟩ →
      m.visited ⟨current.x + dd.1, current.y + dd.2⟩ = true ∨
        upd m.gCost n (m.gCost current + 1) ⟨current.x + dd.1, current.y + dd.2⟩
          ≤ upd m.gCost n (m.gCost current + 1) current + 1 := by
    intro dd hdd hddn hvalid2
    by_cases hddd : dd = d
    · right
      rw [upd_ne _ _ (Ne.symm hncur), hddd, ← hn_eq, upd_self]
    · have hddn2 : dd ∉ d :: pend := by
        intro hmem
        rcases List.mem_cons.1 hmem with h | h
        · exact hddd h
        · exact hddn h
      rcases hmid.cur_done dd hdd hddn2 hvalid2 with h | h
      · exact Or.inl h
      · right
        rw [upd_ne _ _ (Ne.symm hncur)]
        by_cases hcell : (⟨current.x + dd.1, current.y + dd.2⟩ : Point) = n
        · rw [hcell, upd_self]
        · rw [upd_ne _ _ hcell]
          exact h
  have h10 : ∀ u, m.visited u = false →
      upd m.gCost n (m.gCost current + 1) u ≠ INT_MAX →
      ∃ f, (u, f) ∈ pushF m.openList (n, m.gCost current + 1 + manhattan n ed) ∧
        f ≤ upd m.gCost n (m.gCost current + 1) u + manhattan u ed := by
    intro u hu hIMu
    by_cases huc : u = n
    · rw [huc]
      refine ⟨m.gCost current + 1 + manhattan n ed,
        self_mem_of_multiset_push hperm, ?_⟩
      rw [upd_self]
    · rw [upd_ne _ _ huc] at hIMu
      obtain ⟨f, hf, hfle⟩ := hmid.pend_inv u hu hIMu
      exact ⟨f, mem_of_multiset_push hperm hf,
        by rw [upd_ne _ _ huc]; exact hfle⟩
  have h11 : ∀ e ∈ pushF m.openList (n, m.gCost current + 1 + manhattan n ed),
      (e.1 = s ∧ e.2 = 0) ∨
      (validCell g e.1 ∧ upd m.gCost n (m.gCost current + 1) e.1 ≠ INT_MAX ∧
        upd m.gCost n (m.gCost current + 1) e.1 + manhattan e.1 ed ≤ e.2) := by
    intro e he
    rcases mem_of_multiset_push_rev hperm he with hel | hex
    · rcases hmid.entries e hel with ⟨hh1, hh2⟩ | ⟨hv2, hIM2, hle2⟩
      · exact Or.inl ⟨hh1, hh2⟩
      · right
        refine ⟨hv2, ?_, ?_⟩
        · by_cases he1 : e.1 = n
          · rw [he1, upd_self, hIMnum]
            omega
          · rw [upd_ne _ _ he1]
            exact hIM2
        · by_cases he1 : e.1 = n
          · rw [he1, upd_self]
            rw [he1] at hle2
            omega
          · rw [upd_ne _ _ he1]
            exact hle2
    · rw [hex]
      right
      refine ⟨hval, ?_, ?_⟩
      · show upd m.gCost n (m.gCost current + 1) n ≠ INT_MAX
        rw [upd_self, hIMnum]
        omega
      · show upd m.gCost n (m.gCost current + 1) n + manhattan n ed
          ≤ m.gCost current + 1 + manhattan n ed
        rw [upd_self]
  have h12 : (pushF m.openList (n, m.gCost current + 1 + manhattan n ed)).length
      + potSum (upd m.gCost n (m.gCost current + 1))
      ≤ rest.length + potSum g0 := by
    have hlen2 := length_of_multiset_push hperm
    have hupd := @potSum_upd m.gCost n (m.gCost current + 1) hbp
    have hpv : pot (m.gCost current + 1) = (m.gCost current + 1).toNat := by
      unfold pot
      rw [if_neg (by rw [hIMnum]; omega)]
    have hdrop : pot (m.gCost current + 1) + 1 ≤ pot (m.gCost n) := by
      rw [hpv]
      unfold pot
      split
      · omega
      · have hn0 : m.gCost n ≠ INT_MAX := by assumption
        obtain ⟨hg0, _, _⟩ := hmid.gval n hn0
        omega
    have hm := hmid.meas
    omega
  exact ⟨hmid.ed_unvis, h2, h3, h4, hmid.vis_valid, hmid.vis_c, h7, h8, h9,
    h10, h11, h12⟩

/-- Processing one direction of the neighbour loop preserves the
mid-expansion invariant, discharging that direction. -/
theorem astarMid_step {g : Grid} {s ed current : Point} {rest : List Entry}
    {g0 : Point → Int} {pushF : List Entry → Entry → List Entry}
    (hpush_perm : ∀ (l : List Entry) (x : Entry),
      (↑(pushF l x) : Multiset Entry) = ↑l + {x})
    (hs : inBounds s) {d : Int × Int} (hd : d ∈ dirs)
    {pend : List (Int × Int)} {m : AStarState}
    (hmid : AMid g s ed current rest g0 (d :: pend) m) :
    AMid g s ed current rest g0 pend (astarMicro g ed current pushF m d) := by
  rw [astarMicro_eq]
  have hnotpend : ∀ dd ∈ dirs, dd ∉ pend → dd ≠ d → dd ∉ d :: pend := by
    intro dd _ hddn hddd hmem
    rcases List.mem_cons.1 hmem with h | h
    · exact hddd h
    · exact hddn h
  by_cases hcond : (isValidGridPosition g (current.x + d.1) (current.y + d.2)
      && !m.visited ⟨current.x + d.1, current.y + d.2⟩) = true
  · rw [if_pos hcond]
    rw [Bool.and_eq_true, Bool.not_eq_true'] at hcond
    obtain ⟨hvalidB, hnvis⟩ := hcond
    have hval : validCell g (⟨current.x + d.1, current.y + d.2⟩ : Point) :=
      (isValid_iff_validCell g _).1 hvalidB
    by_cases hlt : m.gCost current + 1
        < m.gCost ⟨current.x + d.1, current.y + d.2⟩
    · rw [if_pos hlt]
      exact astar_relax hpush_perm hs hd rfl hmid hval hnvis hlt
    · rw [if_neg hlt]
      refine ⟨hmid.ed_unvis, hmid.gs, hmid.gval, hmid.vis_g, hmid.vis_valid,
        hmid.vis_c, hmid.chain, hmid.closed_ne, ?_, hmid.pend_inv,
        hmid.entries, hmid.meas⟩
      intro dd hdd hddn hvalid2
      by_cases hddd : dd = d
      · right
        rw [hddd]
        omega
      · exact hmid.cur_done dd hdd (hnotpend dd hdd hddn hddd) hvalid2
  · rw [if_neg hcond]
    refine ⟨hmid.ed_unvis, hmid.gs, hmid.gval, hmid.vis_g, hmid.vis_valid,
      hmid.vis_c, hmid.chain, hmid.closed_ne, ?_, hmid.pend_inv,
      hmid.entries, hmid.meas⟩
    intro dd hdd hddn hvalid2
    by_cases hddd : dd = d
    · left
      rw [Bool.and_eq_true, Bool.not_eq_true'] at hcond
      have hA : isValidGridPosition g (current.x + d.1) (current.y + d.2)
          = true := by
        rw [hddd] at hvalid2
        exact (isValid_iff_validCell g _).2 hvalid2
      rcases hB : m.visited (⟨current.x + d.1, current.y + d.2⟩ : Point) with
        _ | _
      · exact absurd ⟨hA, hB⟩ hcond
      · rw [hddd]
        exact hB
    · exact hmid.cur_done dd hdd (hnotpend dd hdd hddn hddd) hvalid2

/-- Folding the whole direction list preserves the invariant, emptying the
pending set. -/
theorem astarMid_fold {g : Grid} {s ed current : Point} {rest : List Entry}
    {g0 : Point → Int} {pushF : List Entry → Entry → List Entry}
    (hpush_perm : ∀ (l : List Entry) (x : Entry),
      (↑(pushF l x) : Multiset Entry) = ↑l + {x})
    (hs : inBounds s) :
    ∀ (pending : List (Int × Int)), (∀ d ∈ pending, d ∈ dirs) →
      ∀ m, AMid g s ed current rest g0 pending m →
        AMid g s ed current rest g0 []
          (pending.foldl (astarMicro g ed current pushF) m) := by
  intro pending
  induction pending with
  | nil => intro _ m hm; exact hm
  | cons d pending2 ih =>
    intro hsub m hm
    rw [List.foldl_cons]
    exact ih (fun d2 hd2 => hsub d2 (List.mem_cons_of_mem _ hd2)) _
      (astarMid_step hpush_perm hs (hsub d (List.mem_cons_self _ _)) hm)

theorem astarMicro_ok {g : Grid} {ed current : Point}
    {pushF : List Entry → Entry → List Entry} {ok : List Entry → Prop}
    (hok_push : ∀ l x, ok l → ok (pushF l x)) {st : AStarState}
    (h : ok st.openList) (d : Int × Int) :
    ok ((astarMicro g ed current pushF st d).openList) := by
  rw [astarMicro_eq]
  by_cases h1 : (isValidGridPosition g (current.x + d.1) (current.y + d.2)
      && !st.visited ⟨current.x + d.1, current.y + d.2⟩) = true
  · rw [if_pos h1]
    by_cases h2 : st.gCost current + 1
        < st.gCost ⟨current.x + d.1, current.y + d.2⟩
    · rw [if_pos h2]
      exact hok_push _ _ h
    · rw [if_neg h2]
      exact h
  · rw [if_neg h1]
    exact h

theorem foldl_astarMicro_ok {g : Grid} {ed current : Point}
    {pushF : List Entry → Entry → List Entry} {ok : List Entry → Prop}
    (hok_push : ∀ l x, ok l → ok (pushF l x)) :
    ∀ (ds : List (Int × Int)) (st : AStarState), ok st.openList →
      ok ((ds.foldl (astarMicro g ed current pushF) st).openList) := by
  intro ds
  induction ds with
  | nil => intro st h; exact h
  | cons d ds ih =>
    intro st h
    rw [List.foldl_cons]
    exact ih _ (astarMicro_ok hok_push h d)

/-- One full loop iteration (pop, mark, relax the four neighbours)
restores the global invariant, keeps the frontier well-formed, and
strictly decreases the measure. -/
theorem astar_expand_preserves {g : Grid} {s ed : Point} {st : AStarState}
    {pushF : List Entry → Entry → List Entry}
    {popF : List Entry → List Entry} {ok : List Entry → Prop}
    (hok_push : ∀ l x, ok l → ok (pushF l x))
    (hok_pop : ∀ l, ok l → l ≠ [] → ok (popF l))
    (hpush_perm : ∀ (l : List Entry) (x : Entry),
      (↑(pushF l x) : Multiset Entry) = ↑l + {x})
    (hpop_perm : ∀ l, ok l → l ≠ [] →
      (↑l : Multiset Entry) = ↑(popF l) + {getE l 0})
    (htop : ∀ l, ok l → ∀ e ∈ l, (getE l 0).2 ≤ e.2)
    (hs : inBounds s)
    (inv : AInv g s ed st) (hok : ok st.openList) (hne : st.openList ≠ [])
    (hced : (getE st.openList 0).1 ≠ ed) :
    AInv g s ed (astarExpand g ed (getE st.openList 0).1 pushF
      ⟨popF st.openList, upd st.visited (getE st.openList 0).1 true,
        st.parents, st.gCost⟩) ∧
    ok (astarExpand g ed (getE st.openList 0).1 pushF
      ⟨popF st.openList, upd st.visited (getE st.openList 0).1 true,
        st.parents, st.gCost⟩).openList ∧
    astarMeasure (astarExpand g ed (getE st.openList 0).1 pushF
      ⟨popF st.openList, upd st.visited (getE st.openList 0).1 true,
        st.parents, st.gCost⟩) < astarMeasure st := by
  have hfold := astarMid_fold hpush_perm hs dirs (fun _ hd => hd) _
    (astarMid_init hpop_perm htop inv hok hne hced)
  rw [astarExpand_eq_foldl]
  refine ⟨?_, ?_, ?_⟩
  · refine ⟨hfold.ed_unvis, hfold.gs, hfold.gval, hfold.vis_g,
      hfold.vis_valid, hfold.chain, ?_, hfold.pend_inv, hfold.entries⟩
    intro v hv n hn hvn
    by_cases hvc : v = (getE st.openList 0).1
    · subst hvc
      obtain ⟨d, hd, heq⟩ := List.mem_map.1 hn
      rw [← heq] at hvn ⊢
      exact hfold.cur_done d hd (List.not_mem_nil d) hvn
    · exact hfold.closed_ne v hv hvc n hn hvn
  · exact foldl_astarMicro_ok hok_push dirs _ (hok_pop _ hok hne)
  · have hm := hfold.meas
    have hlen := length_of_multiset_pop (hpop_perm _ hok hne)
    unfold astarMeasure
    omega

theorem astar_empty_no_route {g : Grid} {s ed : Point} {st : AStarState}
    (inv : AInv g s ed st) (hq : st.openList = [])
    (hne : (distSet g s ed).Nonempty) : False := by
  obtain ⟨nn, l, hr, _⟩ := hne
  obtain ⟨u, f, hf, _⟩ :=
    astar_route_pending inv l.length l ed rfl hr inv.ed_unvis
  rw [hq] at hf
  exact List.not_mem_nil _ hf

/-- Main loop lemma for the A* search, generic over the frontier
discipline: with the invariant and sufficient fuel, a non-empty result is
a shortest route (excluding the start), and an empty result means the goal
is the start or unreachable. -/
theorem astarLoop_spec {g : Grid} {s ed : Point}
    {pushF : List Entry → Entry → List Entry}
    {popF : List Entry → List Entry} {ok : List Entry → Prop}
    (hok_push : ∀ l x, ok l → ok (pushF l x))
    (hok_pop : ∀ l, ok l → l ≠ [] → ok (popF l))
    (hpush_perm : ∀ (l : List Entry) (x : Entry),
      (↑(pushF l x) : Multiset Entry) = ↑l + {x})
    (hpop_perm : ∀ l, ok l → l ≠ [] →
      (↑l : Multiset Entry) = ↑(popF l) + {getE l 0})
    (htop : ∀ l, ok l → ∀ e ∈ l, (getE l 0).2 ≤ e.2)
    (hs : inBounds s) :
    ∀ (fuel : ℕ) (st : AStarState), AInv g s ed st → ok st.openList →
      astarMeasure st < fuel →
      (astarLoop g s ed pushF popF fuel st ≠ [] →
        ed ≠ s ∧ IsRoute g s (astarLoop g s ed pushF popF fuel st) ed ∧
        s ∉ astarLoop g s ed pushF popF fuel st ∧
        IsLeast (distSet g s ed) (astarLoop g s ed pushF popF fuel st).length) ∧
      (astarLoop g s ed pushF popF fuel st = [] →
        (distSet g s ed).Nonempty → ed = s) := by
  intro fuel
  induction fuel with
  | zero =>
    intro st _ _ hfuel
    exact absurd hfuel (Nat.not_lt_zero _)
  | succ fuel ih =>
    intro st hinv hok hfuel
    rcases hql : st.openList with _ | ⟨a, arest⟩
    · have hval : astarLoop g s ed pushF popF (fuel + 1) st = [] := by
        rw [astarLoop, hql]
      rw [hval]
      exact ⟨fun hne => absurd rfl hne,
        fun _ hne => (astar_empty_no_route hinv hql hne).elim⟩
    · have hne : st.openList ≠ [] := by rw [hql]; simp
      have hval : astarLoop g s ed pushF popF (fuel + 1) st
          = if (getE st.openList 0).1 = ed
            then reconstructPath st.parents s 1000 (getE st.openList 0).1 []
            else astarLoop g s ed pushF popF fuel
              (astarExpand g ed (getE st.openList 0).1 pushF
                ⟨popF st.openList, upd st.visited (getE st.openList 0).1 true,
                  st.parents, st.gCost⟩) := by
        rw [astarLoop, hql]
      by_cases hced : (getE st.openList 0).1 = ed
      · rw [hval, if_pos hced]
        rw [hced]
        by_cases hse : ed = s
        · have hres : reconstructPath st.parents s 1000 ed [] = [] := by
            rw [hse, show (1000 : ℕ) = 999 + 1 from rfl, reconstructPath,
              if_pos rfl]
            rfl
          rw [hres]
          exact ⟨fun hne2 => absurd rfl hne2, fun _ _ => hse⟩
        · have hunvis : st.visited (getE st.openList 0).1 = false := by
            rw [hced]
            exact hinv.ed_unvis
          obtain ⟨hIM, hleast⟩ :=
            astar_pop_correct htop hinv hok hne hunvis
          rw [hced] at hIM hleast
          obtain ⟨h0, h300, _⟩ := hinv.gval ed hIM
          obtain ⟨l, hrec, hroute, hlenle, _⟩ := hinv.chain ed hIM
          have heval : reconstructPath st.parents s 1000 ed [] = l := by
            have := hrec.eval 1000 [] (by omega)
            simpa using this
          rw [heval]
          have hlne : l ≠ [] := by
            intro h0'
            rw [h0'] at hrec
            exact hse (hrec.nil_inv)
          have hlen_eq : l.length = (st.gCost ed).toNat := by
            have h1 : (st.gCost ed).toNat ≤ l.length :=
              hleast.2 ⟨l, hroute, rfl⟩
            omega
          constructor
          · intro _
            refine ⟨hse, hroute, hrec.start_not_mem, ?_⟩
            rw [hlen_eq]
            exact hleast
          · intro h0'
            exact absurd h0' hlne
      · rw [hval, if_neg hced]
        obtain ⟨hinv', hok', hmeas'⟩ := astar_expand_preserves hok_push
          hok_pop hpush_perm hpop_perm htop hs hinv hok hne hced
        exact ih _ hinv' hok' (by omega)

/-- One unrolling of the A* loop on a non-empty frontier. -/
theorem astarLoop_cons {g : Grid} {s ed : Point}
    {pushF : List Entry → Entry → List Entry}
    {popF : List Entry → List Entry} {fuel : ℕ} {st : AStarState}
    {a : Entry} {arest : List Entry} (hql : st.openList = a :: arest) :
    astarLoop g s ed pushF popF (fuel + 1) st
      = if (getE st.openList 0).1 = ed
        then reconstructPath st.parents s 1000 (getE st.openList 0).1 []
        else astarLoop g s ed pushF popF fuel
          (astarExpand g ed (getE st.openList 0).1 pushF
            ⟨popF st.openList, upd st.visited (getE st.openList 0).1 true,
              st.parents, st.gCost⟩) := by
  rw [astarLoop, hql]

theorem astarInit_inv (g : Grid) (s ed : Point) : AInv g s ed (astarInit s) := by
  have hIMnum : INT_MAX = (2147483647 : Int) := rfl
  refine ⟨rfl, ?_, ?_, ?_, ?_, ?_, ?_, ?_, ?_⟩
  · show upd (fun _ => INT_MAX) s 0 s = 0
    exact upd_self _ _ _
  · intro u hIMu
    have hIMu' : upd (fun _ => INT_MAX) s 0 u ≠ INT_MAX := hIMu
    show 0 ≤ upd (fun _ => INT_MAX) s 0 u ∧ upd (fun _ => INT_MAX) s 0 u ≤ 300 ∧
      (upd (fun _ => INT_MAX) s 0 u).toNat ∈ distSet g s u
    by_cases hu : u = s
    · rw [hu, upd_self]
      exact ⟨le_refl _, by omega, zero_mem_distSet_self g s⟩
    · rw [upd_ne _ _ hu] at hIMu'
      exact absurd rfl hIMu'
  · intro u hu
    have hu' : false = true := hu
    exact Bool.noConfusion hu'
  · intro u hu
    have hu' : false = true := hu
    exact Bool.noConfusion hu'
  · intro u hIMu
    have hIMu' : upd (fun _ => INT_MAX) s 0 u ≠ INT_MAX := hIMu
    by_cases hu : u = s
    · rw [hu]
      refine ⟨[], .base, rfl, ?_, ?_⟩
      · show ((List.length [] : ℕ) : Int) ≤ upd (fun _ => INT_MAX) s 0 s
        rw [upd_self]
        simp
      · intro x hx
        simp at hx
    · rw [upd_ne _ _ hu] at hIMu'
      exact absurd rfl hIMu'
  · intro v hv
    have hv' : false = true := hv
    exact Bool.noConfusion hv'
  · intro u hu hIMu
    have hIMu' : upd (fun _ => INT_MAX) s 0 u ≠ INT_MAX := hIMu
    by_cases hus : u = s
    · rw [hus]
      refine ⟨0, List.mem_singleton_self _, ?_⟩
      show (0 : Int) ≤ upd (fun _ => INT_MAX) s 0 s + manhattan s ed
      rw [upd_self]
      have := manhattan_nonneg s ed
      omega
    · rw [upd_ne _ _ hus] at hIMu'
      exact absurd rfl hIMu'
  · intro e he
    have he' : e ∈ [((s, 0) : Entry)] := he
    rw [List.mem_singleton] at he'
    left
    rw [he']
    exact ⟨rfl, rfl⟩

theorem potSum_init (s : Point) :
    potSum (upd (fun _ => INT_MAX) s 0) ≤ 90300 := by
  have hpt : ∀ p ∈ boundedPoints, pot (upd (fun _ => INT_MAX) s 0 p) ≤ 301 := by
    intro p _
    by_cases hp : p = s
    · rw [hp, upd_self]
      unfold pot
      rw [if_neg (by rw [show INT_MAX = (2147483647 : Int) from rfl]; omega)]
      omega
    · rw [upd_ne _ _ hp]
      unfold pot
      rw [if_pos rfl]
  calc potSum (upd (fun _ => INT_MAX) s 0) ≤ boundedPoints.card • 301 :=
        Finset.sum_le_card_nsmul _ _ _ hpt
    _ = 90300 := by rw [card_boundedPoints, smul_eq_mul]

theorem astarInit_measure (s : Point) : astarMeasure (astarInit s) < 100000 := by
  have h1 := potSum_init s
  show ((astarInit s).openList.length + potSum (astarInit s).gCost) < 100000
  have h2 : (astarInit s).openList.length = 1 := rfl
  have h3 : potSum (astarInit s).gCost = potSum (upd (fun _ => INT_MAX) s 0) :=
    rfl
  omega

theorem isHeap_singleton (e : Entry) : IsHeap [e] := by
  intro i hi hilen
  simp at hilen
  omega

/-- Top-level specification of `findPathA`: a non-empty result is a
shortest route to the goal (excluding the start), and an empty result
means the goal is the start or unreachable. -/
theorem findPathA_spec (g : Grid) (s ed : Point) (hs : inBounds s) :
    (findPathA g s ed ≠ [] →
      ed ≠ s ∧ IsRoute g s (findPathA g s ed) ed ∧ s ∉ findPathA g s ed ∧
      IsLeast (distSet g s ed) (findPathA g s ed).length) ∧
    (findPathA g s ed = [] → (distSet g s ed).Nonempty → ed = s) := by
  refine astarLoop_spec (fun l x h => heapPush_isHeap l x h)
    (fun l h _ => heapPop_isHeap l h) (fun l x => heapPush_perm l x)
    (fun l h hne => heapPop_perm l h hne) isHeap_top_min hs 100000 _
    (astarInit_inv g s ed) ?_ (astarInit_measure s)
  exact isHeap_singleton _

/-- Top-level specification of the spec's FIFO-tie-break reference A*. -/
theorem findPathAFifo_spec (g : Grid) (s ed : Point) (hs : inBounds s) :
    (findPathAFifo g s ed ≠ [] →
      ed ≠ s ∧ IsRoute g s (findPathAFifo g s ed) ed ∧
      s ∉ findPathAFifo g s ed ∧
      IsLeast (distSet g s ed) (findPathAFifo g s ed).length) ∧
    (findPathAFifo g s ed = [] → (distSet g s ed).Nonempty → ed = s) := by
  refine astarLoop_spec (fun l x h => fifoPush_pairwise l x h)
    (fun l h _ => fifo_tail_pairwise l h) (fun l x => fifoPush_perm l x)
    (fun l _ hne => fifo_pop_perm l hne) (fun l h => fifo_top_min l h)
    hs 100000 _ (astarInit_inv g s ed) ?_ (astarInit_measure s)
  exact List.pairwise_singleton _ _

/-- The A* loop with coincident start and goal returns immediately with
the empty path (the first pop is the start itself). -/
theorem astarLoop_self (g : Grid) (s : Point)
    (pushF : List Entry → Entry → List Entry)
    (popF : List Entry → List Entry) (fuel : ℕ) :
    astarLoop g s s pushF popF (fuel + 1) (astarInit s) = [] := by
  rw [astarLoop_cons (show (astarInit s).openList = [((s, 0) : Entry)] from rfl),
    if_pos (show (getE (astarInit s).openList 0).1 = s from rfl)]
  rw [show (1000 : ℕ) = 999 + 1 from rfl, reconstructPath,
    if_pos (show (getE (astarInit s).openList 0).1 = s from rfl)]
  rfl

theorem findPathA_self (g : Grid) (s : Point) : findPathA g s s = [] := by
  rw [findPathA, show (100000 : ℕ) = 99999 + 1 from rfl]
  exact astarLoop_self g s heapPush heapPop 99999

theorem findPathAFifo_self (g : Grid) (s : Point) : findPathAFifo g s s = [] := by
  rw [findPathAFifo, show (100000 : ℕ) = 99999 + 1 from rfl]
  exact astarLoop_self g s fifoPush List.tail 99999

theorem isValid_upd_ne' {g : Grid} {s : Point} {x y v : Int}
    (h : (⟨x, y⟩ : Point) ≠ s) :
    isValidGridPosition (upd g s v) x y = isValidGridPosition g x y :=
  @isValid_upd_ne g s ⟨x, y⟩ v h

theorem astarMicro_visited_eq {g : Grid} {ed current : Point}
    {pushF : List Entry → Entry → List Entry} {st : AStarState}
    (d : Int × Int) :
    (astarMicro g ed current pushF st d).visited = st.visited := by
  rw [astarMicro_eq]
  by_cases h1 : (isValidGridPosition g (current.x + d.1) (current.y + d.2)
      && !st.visited ⟨current.x + d.1, current.y + d.2⟩) = true
  · rw [if_pos h1]
    by_cases h2 : st.gCost current + 1
        < st.gCost ⟨current.x + d.1, current.y + d.2⟩
    · rw [if_pos h2]
    · rw [if_neg h2]
  · rw [if_neg h1]

theorem astarMicro_upd_start {g : Grid} {s ed current : Point}
    {pushF : List Entry → Entry → List Entry} {st : AStarState}
    (hvs : st.visited s = true) (d : Int × Int) :
    astarMicro (upd g s 0) ed current pushF st d
      = astarMicro g ed current pushF st d := by
  rw [astarMicro_eq, astarMicro_eq]
  by_cases hns : (⟨current.x + d.1, current.y + d.2⟩ : Point) = s
  · rw [hns, hvs]
    simp
  · rw [isValid_upd_ne' hns]

theorem foldl_astarMicro_upd_start {g : Grid} {s ed current : Point}
    {pushF : List Entry → Entry → List Entry} :
    ∀ (ds : List (Int × Int)) (st : AStarState), st.visited s = true →
      ds.foldl (astarMicro (upd g s 0) ed current pushF) st
        = ds.foldl (astarMicro g ed current pushF) st := by
  intro ds
  induction ds with
  | nil => intro st _; rfl
  | cons d ds ih =>
    intro st hvs
    rw [List.foldl_cons, List.foldl_cons, astarMicro_upd_start hvs d]
    exact ih _ (by rw [astarMicro_visited_eq]; exact hvs)

theorem foldl_astarMicro_visited {g : Grid} {ed current : Point}
    {pushF : List Entry → Entry → List Entry} :
    ∀ (ds : List (Int × Int)) (st : AStarState),
      (ds.foldl (astarMicro g ed current pushF) st).visited = st.visited := by
  intro ds
  induction ds with
  | nil => intro st; rfl
  | cons d ds ih =>
    intro st
    rw [List.foldl_cons, ih, astarMicro_visited_eq]

theorem astarLoop_upd_start {g : Grid} {s ed : Point}
    {pushF : List Entry → Entry → List Entry}
    {popF : List Entry → List Entry} :
    ∀ (fuel : ℕ) (st : AStarState), st.visited s = true →
      astarLoop (upd g s 0) s ed pushF popF fuel st
        = astarLoop g s ed pushF popF fuel st := by
  intro fuel
  induction fuel with
  | zero => intro st _; rfl
  | succ fuel ih =>
    intro st hvs
    rcases hql : st.openList with _ | ⟨a, arest⟩
    · rw [astarLoop, astarLoop, hql]
    · rw [astarLoop_cons hql, astarLoop_cons hql]
      by_cases hced : (getE st.openList 0).1 = ed
      · rw [if_pos hced, if_pos hced]
      · rw [if_neg hced, if_neg hced,
          astarExpand_eq_foldl, astarExpand_eq_foldl]
        have hvs1 : (⟨popF st.openList,
            upd st.visited (getE st.openList 0).1 true, st.parents,
            st.gCost⟩ : AStarState).visited s = true := by
          show upd st.visited (getE st.openList 0).1 true s = true
          by_cases hsc : s = (getE st.openList 0).1
          · rw [hsc, upd_self]
          · rw [upd_ne _ _ hsc]
            exact hvs
        rw [foldl_astarMicro_upd_start dirs _ hvs1]
        exact ih _ (by rw [foldl_astarMicro_visited]; exact hvs1)

/-- `findPathA` never consults the start cell's occupancy. -/
theorem findPathA_upd_start (g : Grid) (s ed : Point) :
    findPathA (upd g s 0) s ed = findPathA g s ed := by
  rw [findPathA, findPathA, show (100000 : ℕ) = 99999 + 1 from rfl,
    astarLoop_cons (show (astarInit s).openList = [((s, 0) : Entry)] from rfl),
    astarLoop_cons (show (astarInit s).openList = [((s, 0) : Entry)] from rfl)]
  by_cases hced : (getE (astarInit s).openList 0).1 = ed
  · rw [if_pos hced, if_pos hced]
  · rw [if_neg hced, if_neg hced, astarExpand_eq_foldl, astarExpand_eq_foldl]
    have hvs1 : (⟨heapPop (astarInit s).openList,
        upd (astarInit s).visited (getE (astarInit s).openList 0).1 true,
        (astarInit s).parents, (astarInit s).gCost⟩ : AStarState).visited s
        = true := by
      show upd (astarInit s).visited (getE (astarInit s).openList 0).1 true s
        = true
      rw [show (getE (astarInit s).openList 0).1 = s from rfl, upd_self]
    rw [foldl_astarMicro_upd_start dirs _ hvs1]
    exact astarLoop_upd_start 99999 _
      (by rw [foldl_astarMicro_visited]; exact hvs1)

/-- The FIFO reference A* never consults the start cell's occupancy. -/
theorem findPathAFifo_upd_start (g : Grid) (s ed : Point) :
    findPathAFifo (upd g s 0) s ed = findPathAFifo g s ed := by
  rw [findPathAFifo, findPathAFifo, show (100000 : ℕ) = 99999 + 1 from rfl,
    astarLoop_cons (show (astarInit s).openList = [((s, 0) : Entry)] from rfl),
    astarLoop_cons (show (astarInit s).openList = [((s, 0) : Entry)] from rfl)]
  by_cases hced : (getE (astarInit s).openList 0).1 = ed
  · rw [if_pos hced, if_pos hced]
  · rw [if_neg hced, if_neg hced, astarExpand_eq_foldl, astarExpand_eq_foldl]
    have hvs1 : (⟨List.tail (astarInit s).openList,
        upd (astarInit s).visited (getE (astarInit s).openList 0).1 true,
        (astarInit s).parents, (astarInit s).gCost⟩ : AStarState).visited s
        = true := by
      show upd (astarInit s).visited (getE (astarInit s).openList 0).1 true s
        = true
      rw [show (getE (astarInit s).openList 0).1 = s from rfl, upd_self]
    rw [foldl_astarMicro_upd_start dirs _ hvs1]
    exact astarLoop_upd_start 99999 _
      (by rw [foldl_astarMicro_visited]; exact hvs1)

/-! ## Claim theorems: the two searches -/

/-- C1: counterexample.  With start = goal (both in-bounds and Free, and a
route — the empty one — exists between them), both searches return the
empty path, not a non-empty shortest path. -/
theorem C1_counterexample :
    validCell freeGrid ⟨0, 0⟩ ∧ IsRoute freeGrid ⟨0, 0⟩ [] ⟨0, 0⟩ ∧
    findPath freeGrid ⟨0, 0⟩ ⟨0, 0⟩ = [] ∧
    findPathA freeGrid ⟨0, 0⟩ ⟨0, 0⟩ = [] :=
  ⟨by decide, rfl, findPath_self freeGrid ⟨0, 0⟩, findPathA_self freeGrid ⟨0, 0⟩⟩

/-- C1 (amended: requires goal ≠ start): whenever the goal differs from
the in-bounds start and some route of Free cells reaches it, both `findPath`
and `findPathA` return non-empty paths of exactly the shortest hop-count
length; in particular the two lengths agree. -/
theorem C1_optimality (g : Grid) (s ed : Point) (hs : inBounds s)
    (hne : ed ≠ s) (hroute : (distSet g s ed).Nonempty) :
    findPath g s ed ≠ [] ∧ findPathA g s ed ≠ [] ∧
    IsLeast (distSet g s ed) (findPath g s ed).length ∧
    IsLeast (distSet g s ed) (findPathA g s ed).length ∧
    (findPath g s ed).length = (findPathA g s ed).length := by
  obtain ⟨hb1, hb2⟩ := findPath_spec g s ed hs
  obtain ⟨ha1, ha2⟩ := findPathA_spec g s ed hs
  have hbne : findPath g s ed ≠ [] := fun h => hne (hb2 h hroute)
  have hane : findPathA g s ed ≠ [] := fun h => hne (ha2 h hroute)
  obtain ⟨_, _, _, hbl⟩ := hb1 hbne
  obtain ⟨_, _, _, hal⟩ := ha1 hane
  exact ⟨hbne, hane, hbl, hal, Nat.le_antisymm (hbl.2 hal.1) (hal.2 hbl.1)⟩

theorem C1_optimality_witness :
    (inBounds (⟨0, 0⟩ : Point) ∧ (⟨1, 0⟩ : Point) ≠ ⟨0, 0⟩ ∧
      (distSet freeGrid ⟨0, 0⟩ ⟨1, 0⟩).Nonempty) ∧
    findPath freeGrid ⟨0, 0⟩ ⟨1, 0⟩ ≠ [] ∧
    (findPath freeGrid ⟨0, 0⟩ ⟨1, 0⟩).length
      = (findPathA freeGrid ⟨0, 0⟩ ⟨1, 0⟩).length := by
  have h := C1_optimality freeGrid ⟨0, 0⟩ ⟨1, 0⟩ (by decide) (by decide)
    ⟨1, [⟨1, 0⟩], by decide, rfl⟩
  exact ⟨⟨by decide, by decide, ⟨1, [⟨1, 0⟩], by decide, rfl⟩⟩, h.1, h.2.2.2.2⟩

/-- C2 (confirmed): any non-empty result of either search excludes the
start, ends at the goal, advances by single 4-connected steps from the
start, and visits only in-bounds Free cells. -/
theorem C2_path_wellformed (g : Grid) (s ed : Point) (hs : inBounds s) :
    (findPath g s ed ≠ [] →
      s ∉ findPath g s ed ∧
      (findPath g s ed).getLast? = some ed ∧
      List.Chain (fun a b => b ∈ neighbors a) s (findPath g s ed) ∧
      ∀ p ∈ findPath g s ed, validCell g p) ∧
    (findPathA g s ed ≠ [] →
      s ∉ findPathA g s ed ∧
      (findPathA g s ed).getLast? = some ed ∧
      List.Chain (fun a b => b ∈ neighbors a) s (findPathA g s ed) ∧
      ∀ p ∈ findPathA g s ed, validCell g p) := by
  constructor
  · intro hne
    obtain ⟨_, hroute, hnmem, _⟩ := (findPath_spec g s ed hs).1 hne
    exact ⟨hnmem, hroute.last_eq hne, hroute.chain,
      fun p hp => hroute.valid_of_mem hp⟩
  · intro hne
    obtain ⟨_, hroute, hnmem, _⟩ := (findPathA_spec g s ed hs).1 hne
    exact ⟨hnmem, hroute.last_eq hne, hroute.chain,
      fun p hp => hroute.valid_of_mem hp⟩

theorem C2_path_wellformed_witness :
    inBounds (⟨0, 0⟩ : Point) ∧
    ((⟨0, 0⟩ : Point) ∉ findPathA freeGrid ⟨0, 0⟩ ⟨1, 0⟩ ∧
      (findPathA freeGrid ⟨0, 0⟩ ⟨1, 0⟩).getLast? = some ⟨1, 0⟩ ∧
      List.Chain (fun a b => b ∈ neighbors a) ⟨0, 0⟩
        (findPathA freeGrid ⟨0, 0⟩ ⟨1, 0⟩) ∧
      ∀ p ∈ findPathA freeGrid ⟨0, 0⟩ ⟨1, 0⟩, validCell freeGrid p) :=
  ⟨by decide, (C2_path_wellformed freeGrid ⟨0, 0⟩ ⟨1, 0⟩ (by decide)).2
    (by rw [show findPathA freeGrid ⟨0, 0⟩ ⟨1, 0⟩ = [⟨1, 0⟩] from rfl]; decide)⟩

/-- C6: counterexample.  On the free grid from (1,1) to (0,3) the two
searches disagree on the cell sequence, so `findPathA` is not equal as a
function to the FIFO-tie-break reference A*. -/
theorem C6_counterexample :
    findPathA freeGrid ⟨1, 1⟩ ⟨0, 3⟩ ≠ findPathAFifo freeGrid ⟨1, 1⟩ ⟨0, 3⟩ := by
  rw [show findPathA freeGrid ⟨1, 1⟩ ⟨0, 3⟩ = [⟨1, 2⟩, ⟨0, 2⟩, ⟨0, 3⟩] from rfl,
    show findPathAFifo freeGrid ⟨1, 1⟩ ⟨0, 3⟩ = [⟨1, 2⟩, ⟨1, 3⟩, ⟨0, 3⟩]
      from rfl]
  decide

/-- C6 (amended: agreement holds for path lengths, not cell sequences):
`findPathA` and the FIFO-tie-break reference A* always return paths of
equal length. -/
theorem C6_tiebreak_length (g : Grid) (s ed : Point) (hs : inBounds s) :
    (findPathA g s ed).length = (findPathAFifo g s ed).length := by
  obtain ⟨ha1, ha2⟩ := findPathA_spec g s ed hs
  obtain ⟨hf1, hf2⟩ := findPathAFifo_spec g s ed hs
  by_cases hae : findPathA g s ed = []
  · by_cases hfe : findPathAFifo g s ed = []
    · rw [hae, hfe]
    · obtain ⟨hne, _, _, hl⟩ := hf1 hfe
      exact absurd (ha2 hae ⟨_, hl.1⟩) hne
  · obtain ⟨hne, _, _, hlA⟩ := ha1 hae
    by_cases hfe : findPathAFifo g s ed = []
    · exact absurd (hf2 hfe ⟨_, hlA.1⟩) hne
    · obtain ⟨_, _, _, hlF⟩ := hf1 hfe
      exact Nat.le_antisymm (hlA.2 hlF.1) (hlF.2 hlA.1)

theorem C6_tiebreak_length_witness :
    inBounds (⟨1, 1⟩ : Point) ∧
    (findPathA freeGrid ⟨1, 1⟩ ⟨0, 3⟩).length
      = (findPathAFifo freeGrid ⟨1, 1⟩ ⟨0, 3⟩).length :=
  ⟨by decide, C6_tiebreak_length freeGrid ⟨1, 1⟩ ⟨0, 3⟩ (by decide)⟩

/-- C7 (confirmed): both searches signal failure only through the empty
path — when the goal is the start, when no route of Free cells reaches the
goal, and in particular when the goal cell is an Obstacle. -/
theorem C7_failure_empty (g : Grid) (s ed : Point) (hs : inBounds s) :
    (findPath g s s = [] ∧ findPathA g s s = []) ∧
    (¬ (distSet g s ed).Nonempty →
      findPath g s ed = [] ∧ findPathA g s ed = []) ∧
    (ed ≠ s → ¬ validCell g ed →
      findPath g s ed = [] ∧ findPathA g s ed = []) := by
  have hempty : ¬ (distSet g s ed).Nonempty →
      findPath g s ed = [] ∧ findPathA g s ed = [] := by
    intro hno
    constructor
    · by_contra hne
      obtain ⟨_, _, _, hl⟩ := (findPath_spec g s ed hs).1 hne
      exact hno ⟨_, hl.1⟩
    · by_contra hne
      obtain ⟨_, _, _, hl⟩ := (findPathA_spec g s ed hs).1 hne
      exact hno ⟨_, hl.1⟩
  refine ⟨⟨findPath_self g s, findPathA_self g s⟩, hempty, ?_⟩
  intro hnes hnv
  apply hempty
  rintro ⟨n, l, hr, _⟩
  cases l with
  | nil => exact hnes (isRoute_nil.1 hr).symm
  | cons c l2 =>
    obtain ⟨l', v, _, _, _, hvc⟩ := hr.concat_inv (by simp)
    exact hnv hvc

theorem C7_failure_empty_witness :
    (inBounds (⟨0, 0⟩ : Point) ∧ (⟨1, 0⟩ : Point) ≠ ⟨0, 0⟩ ∧
      ¬ validCell wallGrid ⟨1, 0⟩) ∧
    (findPath wallGrid ⟨0, 0⟩ ⟨0, 0⟩ = [] ∧
      findPathA wallGrid ⟨0, 0⟩ ⟨0, 0⟩ = []) ∧
    (findPath wallGrid ⟨0, 0⟩ ⟨1, 0⟩ = [] ∧
      findPathA wallGrid ⟨0, 0⟩ ⟨1, 0⟩ = []) := by
  have h := C7_failure_empty wallGrid ⟨0, 0⟩ ⟨1, 0⟩ (by decide)
  exact ⟨⟨by decide, by decide, by decide⟩, h.1,
    h.2.2 (by decide) (by decide)⟩

/-- C10 (confirmed): neither search consults the occupancy of the start
cell — freeing the start cell (the only way its occupancy can matter)
changes neither result. -/
theorem C10_start_independent (g : Grid) (s ed : Point) :
    findPath (upd g s 0) s ed = findPath g s ed ∧
    findPathA (upd g s 0) s ed = findPathA g s ed :=
  ⟨findPath_upd_start g s ed, findPathA_upd_start g s ed⟩

theorem C10_start_independent_witness :
    findPath (upd obstacleGrid00 ⟨0, 0⟩ 0) ⟨0, 0⟩ ⟨1, 0⟩
      = findPath obstacleGrid00 ⟨0, 0⟩ ⟨1, 0⟩ ∧
    findPathA (upd obstacleGrid00 ⟨0, 0⟩ 0) ⟨0, 0⟩ ⟨1, 0⟩
      = findPathA obstacleGrid00 ⟨0, 0⟩ ⟨1, 0⟩ :=
  C10_start_independent obstacleGrid00 ⟨0, 0⟩ ⟨1, 0⟩

end WarehouseRobot
